import Mathlib

/-!
Intrusive doubly-linked list: a shallow embedding.

The link nodes of `intrusive_list.h` / `intrusive_list.cpp` live in a heap that maps an
address (a natural number) to the two pointers `prev` and `next` of the node stored there.
A pointer is an `Option Nat`, with `none` for `nullptr`.  Every member function becomes a
function on heaps; an operation that dereferences a pointer loaded from the heap returns
`none` when that pointer is null (undefined behaviour in the source).
-/

set_option autoImplicit false

namespace intrusive

/-- A pointer to a link node; `none` is `nullptr`. -/
abbrev Ptr := Option Nat

/-- The link node `struct list_base`: two non-owning pointers, both null by default. -/
structure list_base where
  prev : Ptr
  next : Ptr
deriving DecidableEq

/-- The memory: the link node stored at every address. -/
abbrev Heap := Nat → list_base

/-- The assignment `a->prev = v`. -/
def setPrev (h : Heap) (a : Nat) (v : Ptr) : Heap :=
  fun n => if n = a then ⟨v, (h n).next⟩ else h n

/-- The assignment `a->next = v`. -/
def setNext (h : Heap) (a : Nat) (v : Ptr) : Heap :=
  fun n => if n = a then ⟨(h n).prev, v⟩ else h n

/-- `list_base::operator==`: equal `prev` and equal `next`. -/
def list_base.op_eq (a b : list_base) : Bool :=
  decide (a.prev = b.prev) && decide (a.next = b.next)

/-- `list_base::operator!=`. -/
def list_base.op_ne (a b : list_base) : Bool :=
  !(list_base.op_eq a b)

/-- `list_base::unlink`, called on the node at address `self`. -/
def list_base.unlink (h : Heap) (self : Nat) : Heap :=
  let h1 : Heap :=
    match (h self).prev with
    | some p => setNext h p (h self).next
    | none => h
  let h2 : Heap :=
    match (h1 self).next with
    | some n => setPrev h1 n (h1 self).prev
    | none => h1
  setNext (setPrev h2 self none) self none

/-- `list_base::link`, called on the node at `self` with the reference `cur`. -/
def list_base.link (h : Heap) (self cur : Nat) : Heap :=
  if cur = self then h
  else
    let h1 := list_base.unlink h self
    let h2 := setNext h1 self (h1 cur).next
    let h3 := setPrev h2 self (some cur)
    let h4 := setNext h3 cur (some self)
    match (h4 self).next with
    | some n => setPrev h4 n (some self)
    | none => h4

/-- `list_base::~list_base`. -/
def list_base.dtor (h : Heap) (self : Nat) : Heap :=
  list_base.unlink h self

/-- `list_base::list_base(list_base&&)`: the node at `this` is constructed from the node at
`old`: the member initialisers copy `old.prev` and `old.next`, then the body runs. -/
def list_base.move_ctor (h : Heap) (this old : Nat) : Heap :=
  let h0 : Heap := fun n => if n = this then ⟨(h old).prev, (h old).next⟩ else h n
  let h1 : Heap :=
    match (h0 old).prev with
    | some p => setNext h0 p (some this)
    | none => h0
  let h2 : Heap :=
    match (h1 old).next with
    | some q => setPrev h1 q (some this)
    | none => h1
  setPrev (setNext h2 old none) old none

/-- `list_base::list_base(const list_base&)`: the body is empty and names no member, so the
default member initialisers leave both pointers of the new node at `this` null, whatever
the node `old` holds. -/
def list_base.copy_ctor (h : Heap) (this _old : Nat) : Heap :=
  fun n => if n = this then ⟨none, none⟩ else h n

/-- `list_base::operator=(list_base const&)`, defaulted: copies `prev`, then `next`. -/
def list_base.copy_assign (h : Heap) (this old : Nat) : Heap :=
  let h1 := setPrev h this (h old).prev
  setNext h1 this (h1 old).next

/-! ### Iterators: a cursor is the pointer `cur` -/

/-- `list_iterator::operator==`: compares the two designated nodes with `list_base::operator==`. -/
def list_iterator.op_eq (h : Heap) (it other : Ptr) : Option Bool :=
  match it, other with
  | some a, some b => some (list_base.op_eq (h a) (h b))
  | _, _ => none

/-- `list_iterator::operator!=`. -/
def list_iterator.op_ne (h : Heap) (it other : Ptr) : Option Bool :=
  match it, other with
  | some a, some b => some (list_base.op_ne (h a) (h b))
  | _, _ => none

/-- `list_iterator::operator++`: `cur = cur->next`. -/
def list_iterator.op_inc (h : Heap) (it : Ptr) : Option Ptr :=
  match it with
  | some c => some (h c).next
  | none => none

/-- `list_iterator::operator--`: `cur = cur->prev`. -/
def list_iterator.op_dec (h : Heap) (it : Ptr) : Option Ptr :=
  match it with
  | some c => some (h c).prev
  | none => none

/-! ### The container: a list is identified with the address of its sentinel -/

/-- `list::close`. -/
def list.close (h : Heap) (s : Nat) : Heap :=
  setPrev (setNext h s (some s)) s (some s)

/-- `list::list()`: the sentinel member is default-initialised, then `close()` runs. -/
def list.ctor (h : Heap) (s : Nat) : Heap :=
  list.close (fun n => if n = s then ⟨none, none⟩ else h n) s

/-- `list::empty`. -/
def list.empty (h : Heap) (s : Nat) : Bool :=
  decide ((h s).next = some s)

/-- `list::push_back`: `data.link(*sentinel.prev)`. -/
def list.push_back (h : Heap) (s data : Nat) : Option Heap :=
  match (h s).prev with
  | some p => some (list_base.link h data p)
  | none => none

/-- `list::pop_back`: `sentinel.prev->unlink()`. -/
def list.pop_back (h : Heap) (s : Nat) : Option Heap :=
  match (h s).prev with
  | some p => some (list_base.unlink h p)
  | none => none

/-- `list::push_front`: `data.link(sentinel)`. -/
def list.push_front (h : Heap) (s data : Nat) : Heap :=
  list_base.link h data s

/-- `list::pop_front`: `sentinel.next->unlink()`. -/
def list.pop_front (h : Heap) (s : Nat) : Option Heap :=
  match (h s).next with
  | some n => some (list_base.unlink h n)
  | none => none

/-- `list::front`: the node `*sentinel.next`. -/
def list.front (h : Heap) (s : Nat) : Option Nat :=
  (h s).next

/-- `list::back`: the node `*sentinel.prev`. -/
def list.back (h : Heap) (s : Nat) : Option Nat :=
  (h s).prev

/-- `list::begin`. -/
def list.begin (h : Heap) (s : Nat) : Ptr :=
  (h s).next

/-- `list::end`. -/
def list.end_ (s : Nat) : Ptr :=
  some s

/-- `list::insert`: `data.link(*(it.cur->prev))`, returning the iterator `it.cur->prev`. -/
def list.insert (h : Heap) (it : Ptr) (data : Nat) : Option (Heap × Ptr) :=
  match it with
  | none => none
  | some c =>
    match (h c).prev with
    | none => none
    | some p =>
      let h1 := list_base.link h data p
      some (h1, (h1 c).prev)

/-- `list::erase`: remembers `it.cur->next`, unlinks `it.cur`, returns the remembered pointer. -/
def list.erase (h : Heap) (it : Ptr) : Option (Heap × Ptr) :=
  match it with
  | none => none
  | some c => some (list_base.unlink h c, (h c).next)

/-- The six pointer assignments of the general case of `list::splice`. -/
def list.splice_general (h : Heap) (pos : Ptr) (f l : Nat) : Option Heap :=
  match (h l).prev with
  | none => none
  | some lp =>
    let h1 := setNext h lp pos
    match pos with
    | none => none
    | some p =>
      match (h1 p).prev with
      | none => none
      | some pp =>
        let h2 := setNext h1 pp (some f)
        match (h2 f).prev with
        | none => none
        | some fp =>
          let h3 := setNext h2 fp (some l)
          let pos_prev := (h3 p).prev
          let h4 := setPrev h3 p (h3 l).prev
          let h5 := setPrev h4 l (h4 f).prev
          some (setPrev h5 f pos_prev)

/-- The single-element fast path of `list::splice`: `first.cur->unlink(); insert(pos, *first.cur)`. -/
def list.splice_single (h : Heap) (pos : Ptr) (f : Nat) : Option Heap :=
  (list.insert (list_base.unlink h f) pos f).map Prod.fst

/-- `list::splice`, called on the list `this` with the list `other`. -/
def list.splice (h : Heap) (this other : Nat) (pos first last : Ptr) : Option Heap :=
  let same : Option Bool :=
    if this = other then list_iterator.op_eq h last pos else some false
  match same with
  | none => none
  | some true => some h
  | some false =>
    match list_iterator.op_eq h first last with
    | none => none
    | some true => some h
    | some false =>
      match first, last with
      | some f, some l =>
        if (h f).next = some l then list.splice_single h pos f
        else list.splice_general h pos f l
      | _, _ => none

/-- The tag argument of `list<T, Tag>`: `default_tag`, or a tag type of the user. -/
inductive list_tag where
  | default_tag
  | user_tag (id : Nat)
deriving DecidableEq

/-- The body shared by `list::list(list<T>&&)` and `list::operator=(list<T>&&)`. -/
def list.take_over (h : Heap) (this old : Nat) : Option Heap :=
  if list.empty h old then some (list.close h this)
  else
    match (h old).prev with
    | none => none
    | some e =>
      let h1 := list_base.unlink h old
      let h2 := list.close h1 old
      some (list_base.link h2 this e)

/-- The constructor `list::list(list<T>&&)`: the new sentinel is default-initialised before
the body runs.  Its parameter is `list<T, default_tag>&&`, so it is the move constructor
of the lists under the default tag only (see `list.move_construct`). -/
def list.move_ctor (h : Heap) (this old : Nat) : Option Heap :=
  list.take_over (fun n => if n = this then ⟨none, none⟩ else h n) this old

/-- The operator `list::operator=(list<T>&&)`.  Its parameter is `list<T, default_tag>&&`,
so it is the move assignment of the lists under the default tag only (see
`list.move_assignment`). -/
def list.move_assign (h : Heap) (this old : Nat) : Option Heap :=
  if this = old then some h else list.take_over h this old

/-- The implicit copy constructor of `list<T, Tag>`: it copy-constructs the only member,
the sentinel. -/
def list.copy_ctor (h : Heap) (this old : Nat) : Heap :=
  list_base.copy_ctor h this old

/-- The implicit copy assignment of `list<T, Tag>`: it copy-assigns the only member, the
sentinel. -/
def list.copy_assign (h : Heap) (this old : Nat) : Heap :=
  list_base.copy_assign h this old

/-- What `list<T, Tag> fresh(std::move(old))` runs.  Under `default_tag` the argument matches
`list(list<T>&&)`.  Under another tag that constructor takes a different type and the class
declares no move constructor of its own, so the implicit copy constructor is chosen. -/
def list.move_construct (tag : list_tag) (h : Heap) (this old : Nat) : Option Heap :=
  match tag with
  | list_tag.default_tag => list.move_ctor h this old
  | list_tag.user_tag _ => some (list.copy_ctor h this old)

/-- What `dst = std::move(src)` runs on two `list<T, Tag>`.  Under `default_tag` the argument
matches `operator=(list<T>&&)`; under another tag the implicit copy assignment is chosen. -/
def list.move_assignment (tag : list_tag) (h : Heap) (this old : Nat) : Option Heap :=
  match tag with
  | list_tag.default_tag => list.move_assign h this old
  | list_tag.user_tag _ => some (list.copy_assign h this old)

/-- The loop of `list::~list`, with `cur` the loop variable; `none` when the fuel runs out
or a null `cur` is dereferenced. -/
def list.dtor_loop (s : Nat) : Nat → Heap → Ptr → Option Heap
  | 0, _, _ => none
  | fuel + 1, h, cur =>
    if cur = some s then some h
    else
      match cur with
      | none => none
      | some c =>
        let next := (h c).next
        list.dtor_loop s fuel (setNext (setPrev h c none) c none) next

/-- `list::~list`: the body, then the destructor of the member `sentinel`. -/
def list.dtor (fuel : Nat) (h : Heap) (s : Nat) : Option Heap :=
  match list.dtor_loop s fuel h (h s).next with
  | none => none
  | some h1 => some (list_base.dtor h1 s)

/-- Forward iteration `for (it = begin(); it != end(); ++it)`, collecting the visited nodes. -/
def list.forward (h : Heap) (s : Nat) : Nat → Ptr → Option (List Nat)
  | 0, _ => none
  | fuel + 1, it =>
    match list_iterator.op_ne h it (list.end_ s) with
    | none => none
    | some false => some []
    | some true =>
      match it with
      | none => none
      | some c =>
        match list_iterator.op_inc h it with
        | none => none
        | some it1 => (list.forward h s fuel it1).map (fun r => c :: r)

/-- Backward iteration: `k` times `--it`, collecting the node designated after each step;
returns the visited nodes and the final iterator. -/
def list.backward (h : Heap) : Nat → Ptr → Option (List Nat × Ptr)
  | 0, it => some ([], it)
  | k + 1, it =>
    match list_iterator.op_dec h it with
    | some (some c) => (list.backward h k (some c)).map (fun r => (c :: r.1, r.2))
    | _ => none

/-- Repeated `push_back` of the elements `es`, in order. -/
def list.push_back_all (s : Nat) : List Nat → Heap → Option Heap
  | [], h => some h
  | e :: es, h =>
    match list.push_back h s e with
    | none => none
    | some h1 => list.push_back_all s es h1

/-- Repeated `push_front` of the elements `es`, in order. -/
def list.push_front_all (s : Nat) : List Nat → Heap → Heap
  | [], h => h
  | e :: es, h => list.push_front_all s es (list.push_front h s e)

/-! ### Well-formedness -/

/-- The node `a` is directly followed by `b`: `a.next == b` and `b.prev == a`. -/
def Linked (h : Heap) (a b : Nat) : Prop :=
  (h a).next = some b ∧ (h b).prev = some a

instance (h : Heap) (a b : Nat) : Decidable (Linked h a b) :=
  inferInstanceAs (Decidable ((h a).next = some b ∧ (h b).prev = some a))

/-- Every node of `P` is directly followed by the next node of `P`. -/
def Path (h : Heap) : List Nat → Prop
  | a :: b :: P => Linked h a b ∧ Path h (b :: P)
  | _ => True

/-- Deciding `Path` by walking the list. -/
def Path.dec (h : Heap) : (P : List Nat) → Decidable (Path h P)
  | [] => isTrue trivial
  | [_] => isTrue trivial
  | a :: b :: P =>
    have : Decidable (Path h (b :: P)) := Path.dec h (b :: P)
    inferInstanceAs (Decidable (Linked h a b ∧ Path h (b :: P)))

instance (h : Heap) (P : List Nat) : Decidable (Path h P) := Path.dec h P

/-- The distinct nodes `r` form one circular chain, in this order: each node is directly
followed by the next one and the last node is directly followed by the first. -/
def Ring (h : Heap) (r : List Nat) : Prop :=
  r.Nodup ∧ Path h (r ++ r.take 1)

instance (h : Heap) (r : List Nat) : Decidable (Ring h r) :=
  inferInstanceAs (Decidable (r.Nodup ∧ Path h (r ++ r.take 1)))

/-- The list with sentinel `s` is well formed and holds the elements `l`, in this order:
following `next` from the sentinel visits the distinct nodes `l` and returns to the
sentinel, and `prev` runs the same chain backwards. -/
def WF (h : Heap) (s : Nat) (l : List Nat) : Prop :=
  Ring h (s :: l)

instance (h : Heap) (s : Nat) (l : List Nat) : Decidable (WF h s l) :=
  inferInstanceAs (Decidable (Ring h (s :: l)))

/-- Both pointers of the node at `x` are null. -/
def Unlinked (h : Heap) (x : Nat) : Prop :=
  (h x).prev = none ∧ (h x).next = none

instance (h : Heap) (x : Nat) : Decidable (Unlinked h x) :=
  inferInstanceAs (Decidable ((h x).prev = none ∧ (h x).next = none))

/-- The list `l` with `e` placed right before `pos`, or at the end when `pos` is not an
element of `l` (the position `end()`). -/
def insertBefore (pos e : Nat) (l : List Nat) : List Nat :=
  l.takeWhile (fun x => decide (x ≠ pos)) ++ e :: l.dropWhile (fun x => decide (x ≠ pos))

/-! ### The invariants as the data model words them -/

/-- Following `next` from `a` visits the nodes `l`, in this order, and then reaches `b`. -/
def NextChain (h : Heap) : Nat → List Nat → Nat → Prop
  | a, [], b => (h a).next = some b
  | a, x :: l, b => (h a).next = some x ∧ NextChain h x l b

/-- Deciding `NextChain` by walking the list. -/
def NextChain.dec (h : Heap) : (a : Nat) → (l : List Nat) → (b : Nat) →
    Decidable (NextChain h a l b)
  | a, [], b => inferInstanceAs (Decidable ((h a).next = some b))
  | a, x :: l, b =>
    have : Decidable (NextChain h x l b) := NextChain.dec h x l b
    inferInstanceAs (Decidable ((h a).next = some x ∧ NextChain h x l b))

instance (h : Heap) (a : Nat) (l : List Nat) (b : Nat) : Decidable (NextChain h a l b) :=
  NextChain.dec h a l b

/-- The node `n` satisfies `n.next.prev == n` and `n.prev.next == n` (both pointers non-null). -/
def NeighboursAgree (h : Heap) (n : Nat) : Prop :=
  ((h n).next.bind fun a => (h a).prev) = some n ∧
    ((h n).prev.bind fun b => (h b).next) = some n

instance (h : Heap) (n : Nat) : Decidable (NeighboursAgree h n) :=
  inferInstanceAs (Decidable (((h n).next.bind fun a => (h a).prev) = some n ∧
    ((h n).prev.bind fun b => (h b).next) = some n))

/-- The link-node invariant at `n`: unlinked, or linked with agreeing neighbours. -/
def NodeInv (h : Heap) (n : Nat) : Prop :=
  Unlinked h n ∨ NeighboursAgree h n

instance (h : Heap) (n : Nat) : Decidable (NodeInv h n) :=
  inferInstanceAs (Decidable (Unlinked h n ∨ NeighboursAgree h n))

/-- Well-formedness in the words of the invariant, for the chain `l`: following `next` from
the sentinel visits the distinct nodes `l` and returns to the sentinel, every node on the
chain has agreeing neighbours, and `sentinel.next == sentinel` iff
`sentinel.prev == sentinel`. -/
def WellFormedAs (h : Heap) (s : Nat) (l : List Nat) : Prop :=
  (s :: l).Nodup ∧ NextChain h s l s ∧ (∀ n ∈ s :: l, NeighboursAgree h n) ∧
    ((h s).next = some s ↔ (h s).prev = some s)

instance (h : Heap) (s : Nat) (l : List Nat) : Decidable (WellFormedAs h s l) :=
  inferInstanceAs (Decidable ((s :: l).Nodup ∧ NextChain h s l s ∧
    (∀ n ∈ s :: l, NeighboursAgree h n) ∧ ((h s).next = some s ↔ (h s).prev = some s)))

/-- Well-formedness in the words of the invariant: some finite chain of distinct nodes
leads from the sentinel back to the sentinel. -/
def WellFormed (h : Heap) (s : Nat) : Prop :=
  ∃ l : List Nat, WellFormedAs h s l

/-! ### Concrete heaps -/

/-- The heap in which every node is unlinked. -/
def heap0 : Heap := fun _ => ⟨none, none⟩

/-- A list with sentinel `0` holding the single element `1`. -/
def heapA : Heap := fun n =>
  match n with
  | 0 => ⟨some 1, some 1⟩
  | 1 => ⟨some 0, some 0⟩
  | _ => ⟨none, none⟩

/-- A list with sentinel `0` holding the elements `1, 2, 3`; every other node is unlinked. -/
def heapABC : Heap := fun n =>
  match n with
  | 0 => ⟨some 3, some 1⟩
  | 1 => ⟨some 0, some 2⟩
  | 2 => ⟨some 1, some 3⟩
  | 3 => ⟨some 2, some 0⟩
  | _ => ⟨none, none⟩

/-- Two lists: sentinel `0` holding `1, 2, 3` and sentinel `10` holding `11, 12`. -/
def heapTwo : Heap := fun n =>
  match n with
  | 0 => ⟨some 3, some 1⟩
  | 1 => ⟨some 0, some 2⟩
  | 2 => ⟨some 1, some 3⟩
  | 3 => ⟨some 2, some 0⟩
  | 10 => ⟨some 12, some 11⟩
  | 11 => ⟨some 10, some 12⟩
  | 12 => ⟨some 11, some 10⟩
  | _ => ⟨none, none⟩

/-- One list with sentinel `0` holding `1, 2, 3, 4, 5`. -/
def heapFive : Heap := fun n =>
  match n with
  | 0 => ⟨some 5, some 1⟩
  | 1 => ⟨some 0, some 2⟩
  | 2 => ⟨some 1, some 3⟩
  | 3 => ⟨some 2, some 4⟩
  | 4 => ⟨some 3, some 5⟩
  | 5 => ⟨some 4, some 0⟩
  | _ => ⟨none, none⟩

/-- Two empty lists, with the sentinels `0` and `10`. -/
def heapEmpties : Heap := fun n =>
  match n with
  | 0 => ⟨some 0, some 0⟩
  | 10 => ⟨some 10, some 10⟩
  | _ => ⟨none, none⟩

/-- An empty list with sentinel `0` and a list with sentinel `10` holding `11, 12`. -/
def heapDst : Heap := fun n =>
  match n with
  | 0 => ⟨some 0, some 0⟩
  | 10 => ⟨some 12, some 11⟩
  | 11 => ⟨some 10, some 12⟩
  | 12 => ⟨some 11, some 10⟩
  | _ => ⟨none, none⟩

/-- The heap that `operator=` leaves from `heapDst` (see C17): the list with sentinel `10` is
empty, and the nodes `11` and `12` still carry their old pointers. -/
def heapStale : Heap := fun n =>
  match n with
  | 0 => ⟨some 0, some 0⟩
  | 10 => ⟨some 10, some 10⟩
  | 11 => ⟨some 10, some 12⟩
  | 12 => ⟨some 11, some 10⟩
  | _ => ⟨none, none⟩

/-! ### Pointer-level facts about `unlink` and `link` -/

@[simp] theorem setPrev_prev (h : Heap) (a : Nat) (v : Ptr) (n : Nat) :
    (setPrev h a v n).prev = if n = a then v else (h n).prev := by
  unfold setPrev; split <;> rfl

@[simp] theorem setPrev_next (h : Heap) (a : Nat) (v : Ptr) (n : Nat) :
    (setPrev h a v n).next = (h n).next := by
  unfold setPrev; split <;> rfl

@[simp] theorem setNext_next (h : Heap) (a : Nat) (v : Ptr) (n : Nat) :
    (setNext h a v n).next = if n = a then v else (h n).next := by
  unfold setNext; split <;> rfl

@[simp] theorem setNext_prev (h : Heap) (a : Nat) (v : Ptr) (n : Nat) :
    (setNext h a v n).prev = (h n).prev := by
  unfold setNext; split <;> rfl

theorem node_eq_iff (a b : list_base) : a = b ↔ a.prev = b.prev ∧ a.next = b.next := by
  cases a; cases b; simp

theorem unlink_next (h : Heap) (x m : Nat) :
    (list_base.unlink h x m).next =
      if m = x then none else if (h x).prev = some m then (h x).next else (h m).next := by
  unfold list_base.unlink
  by_cases hm : m = x
  · simp [hm]
  · cases hp : (h x).prev with
    | none => cases hn : (h x).next <;> simp [hm]
    | some p =>
      have h1 : (setNext h p (h x).next x).next = (h x).next := by
        simp
      by_cases hmp : p = m
      · subst hmp; cases hn : (h x).next <;> simp [hm, hp, h1, hn]
      · cases hn : (h x).next <;> simp [hm, hp, hmp, Ne.symm hmp, h1, hn]

theorem unlink_prev (h : Heap) (x m : Nat) :
    (list_base.unlink h x m).prev =
      if m = x then none else if (h x).next = some m then (h x).prev else (h m).prev := by
  unfold list_base.unlink
  by_cases hm : m = x
  · simp [hm]
  · cases hp : (h x).prev with
    | none =>
      cases hn : (h x).next with
      | none => simp [hm]
      | some n =>
        by_cases hmn : n = m
        · subst hmn; simp [hm, hn, hp]
        · simp [hm, hn, hp, hmn, Ne.symm hmn]
    | some p =>
      have h1 : (setNext h p (h x).next x).next = (h x).next := by
        simp
      cases hn : (h x).next with
      | none => simp [hm, hn]
      | some n =>
        by_cases hmn : n = m
        · subst hmn; simp [hm, hn, hp]
        · simp [hm, hn, hp, hmn, Ne.symm hmn]

theorem link_next (h : Heap) (e c m : Nat) (hce : c ≠ e) :
    (list_base.link h e c m).next =
      if m = c then some e else if m = e then (list_base.unlink h e c).next
      else (list_base.unlink h e m).next := by
  unfold list_base.link
  simp only [if_neg hce]
  have h4 : (setNext (setPrev (setNext (list_base.unlink h e) e (list_base.unlink h e c).next) e
      (some c)) c (some e) e).next = (list_base.unlink h e c).next := by
    simp [Ne.symm hce]
  rw [h4]
  cases hn : (list_base.unlink h e c).next <;> simp

theorem link_prev (h : Heap) (e c m : Nat) (hce : c ≠ e) :
    (list_base.link h e c m).prev =
      if (list_base.unlink h e c).next = some m then some e else if m = e then some c
      else (list_base.unlink h e m).prev := by
  unfold list_base.link
  simp only [if_neg hce]
  have h4 : (setNext (setPrev (setNext (list_base.unlink h e) e (list_base.unlink h e c).next) e
      (some c)) c (some e) e).next = (list_base.unlink h e c).next := by
    simp [Ne.symm hce]
  rw [h4]
  cases hn : (list_base.unlink h e c).next with
  | none => simp
  | some n =>
    by_cases hmn : n = m
    · subst hmn; simp
    · simp [hmn, Ne.symm hmn]

theorem unlink_of_unlinked {h : Heap} {e : Nat} (he : Unlinked h e) :
    list_base.unlink h e = h := by
  funext m
  rw [node_eq_iff, unlink_next, unlink_prev, he.1, he.2]
  by_cases hm : m = e
  · subst hm; simp [he.1, he.2]
  · simp [hm]

theorem unlink_unlinked (h : Heap) (x : Nat) : Unlinked (list_base.unlink h x) x :=
  ⟨by rw [unlink_prev]; simp, by rw [unlink_next]; simp⟩

theorem link_unlink (h : Heap) (e c : Nat) (hce : c ≠ e) :
    list_base.link (list_base.unlink h e) e c = list_base.link h e c := by
  unfold list_base.link
  rw [unlink_of_unlinked (unlink_unlinked h e), if_neg hce, if_neg hce]

/-! ### Paths and rings -/

theorem path_iff_chain (h : Heap) (P : List Nat) : Path h P ↔ List.Chain' (Linked h) P := by
  induction P with
  | nil => simp [Path]
  | cons a P ih =>
    cases P with
    | nil => simp [Path]
    | cons b P => rw [List.chain'_cons, ← ih]; simp [Path]

/-- Joining two paths: `P` ends in `a`, `Q` starts with `b`. -/
theorem path_join {h : Heap} {P Q F G : List Nat} {a b : Nat}
    (hP : P = F ++ [a]) (hQ : Q = b :: G) :
    Path h (P ++ Q) ↔ Path h P ∧ Linked h a b ∧ Path h Q := by
  subst hP hQ
  simp only [path_iff_chain]
  rw [List.chain'_append]
  constructor
  · rintro ⟨h1, h2, h3⟩
    exact ⟨h1, h3 a (by simp) b (by simp), h2⟩
  · rintro ⟨h1, h2, h3⟩
    refine ⟨h1, h3, ?_⟩
    intro x hx y hy
    simp at hx hy
    subst hx hy
    exact h2

/-- A path that starts with `a` and goes on with `Q`, which starts with `b`. -/
theorem path_cons {h : Heap} {Q G : List Nat} {a b : Nat} (hQ : Q = b :: G) :
    Path h (a :: Q) ↔ Linked h a b ∧ Path h Q := by
  subst hQ; rfl

theorem path_frame {h h1 : Heap} {P : List Nat} (hP : Path h P)
    (hn : ∀ a ∈ P.dropLast, (h1 a).next = (h a).next)
    (hp : ∀ b ∈ P.tail, (h1 b).prev = (h b).prev) : Path h1 P := by
  induction P with
  | nil => trivial
  | cons a P ih =>
    cases P with
    | nil => trivial
    | cons b P =>
      refine ⟨⟨?_, ?_⟩, ih hP.2 ?_ ?_⟩
      · rw [hn a (by simp)]; exact hP.1.1
      · rw [hp b (by simp)]; exact hP.1.2
      · intro x hx; exact hn x (by simp at hx ⊢; exact Or.inr hx)
      · intro x hx; exact hp x (by simp at hx ⊢; exact Or.inr hx)

theorem ring_rotate {h : Heap} {l1 l2 : List Nat} (hr : Ring h (l1 ++ l2)) :
    Ring h (l2 ++ l1) := by
  cases l1 with
  | nil => simpa using hr
  | cons a l1 =>
    cases l2 with
    | nil => simpa using hr
    | cons b l2 =>
      obtain ⟨hnd, hp⟩ := hr
      refine ⟨List.nodup_append_comm.1 hnd, ?_⟩
      simp only [path_iff_chain] at hp ⊢
      have e1 : (a :: l1 ++ b :: l2) ++ (a :: l1 ++ b :: l2).take 1
          = (a :: l1) ++ b :: (l2 ++ [a]) := by simp
      have e2 : (b :: l2 ++ a :: l1) ++ (b :: l2 ++ a :: l1).take 1
          = (b :: l2) ++ a :: (l1 ++ [b]) := by simp
      rw [e1, List.chain'_split] at hp
      rw [e2, List.chain'_split]
      exact ⟨by simpa using hp.2, by simpa using hp.1⟩

theorem exists_concat (a : Nat) (T : List Nat) : ∃ F b, a :: T = F ++ [b] := by
  rcases List.eq_nil_or_concat (a :: T) with h | ⟨F, b, h⟩
  · cases h
  · exact ⟨F, b, by simpa using h⟩


theorem ring_unlink_aux {h : Heap} {x n p : Nat} {r F G : List Nat}
    (hA : r = n :: G) (hB : r = F ++ [p]) (hr : Ring h (x :: r)) :
    Ring (list_base.unlink h x) r ∧ ∀ m, m ∉ x :: r → list_base.unlink h x m = h m := by
  obtain ⟨hnd, hp⟩ := hr
  have e : (x :: r) ++ (x :: r).take 1 = x :: (r ++ [x]) := by simp
  have hQ : r ++ [x] = n :: (G ++ [x]) := by rw [hA]; simp
  rw [e, path_cons hQ, path_join hB rfl] at hp
  obtain ⟨hxn, hpr, hpx, -⟩ := hp
  have hxr : x ∉ r := (List.nodup_cons.1 hnd).1
  have hrn : r.Nodup := (List.nodup_cons.1 hnd).2
  have hnG : n ∉ G := by rw [hA] at hrn; exact (List.nodup_cons.1 hrn).1
  have hpF : p ∉ F := by
    rw [hB] at hrn
    have := List.nodup_append.1 hrn
    intro hp'; exact this.2.2 hp' (by simp)
  have hpr' : p ∈ r := by rw [hB]; simp
  have hnr' : n ∈ r := by rw [hA]; simp
  have hxp : p ≠ x := fun e => hxr (e ▸ hpr')
  have hxn' : n ≠ x := fun e => hxr (e ▸ hnr')
  have hnext : ∀ m, (list_base.unlink h x m).next =
      if m = x then none else if p = m then some n else (h m).next := by
    intro m; rw [unlink_next, hpx.2, hxn.1]; simp
  have hprev : ∀ m, (list_base.unlink h x m).prev =
      if m = x then none else if n = m then some p else (h m).prev := by
    intro m; rw [unlink_prev, hpx.2, hxn.1]; simp
  refine ⟨⟨hrn, ?_⟩, ?_⟩
  · have e2 : r ++ r.take 1 = r ++ [n] := by rw [hA]; simp
    rw [e2, path_join hB rfl]
    refine ⟨path_frame hpr ?_ ?_, ⟨?_, ?_⟩, trivial⟩
    · intro a ha
      rw [hB, List.dropLast_concat] at ha
      have har : a ∈ r := by rw [hB]; simp [ha]
      have h1 : a ≠ x := fun e => hxr (e ▸ har)
      have h2 : p ≠ a := fun e => hpF (e ▸ ha)
      rw [hnext]; simp [h1, h2]
    · intro b hb
      rw [hA, List.tail_cons] at hb
      have hbr : b ∈ r := by rw [hA]; simp [hb]
      have h1 : b ≠ x := fun e => hxr (e ▸ hbr)
      have h2 : n ≠ b := fun e => hnG (e ▸ hb)
      rw [hprev]; simp [h1, h2]
    · rw [hnext]; simp [hxp]
    · rw [hprev]; simp [hxn']
  · intro m hm
    have h1 : m ≠ x := fun e => hm (by simp [e])
    have h2 : p ≠ m := fun e => hm (by rw [← e]; simp [hpr'])
    have h3 : n ≠ m := fun e => hm (by rw [← e]; simp [hnr'])
    rw [node_eq_iff, hnext, hprev]; simp [h1, h2, h3]

/-- Unlinking a node of a ring leaves the ring of the other nodes; nodes outside are untouched. -/
theorem ring_unlink {h : Heap} {x : Nat} {r : List Nat} (hr : Ring h (x :: r)) :
    Ring (list_base.unlink h x) r ∧ ∀ m, m ∉ x :: r → list_base.unlink h x m = h m := by
  cases r with
  | nil =>
    refine ⟨⟨List.nodup_nil, trivial⟩, ?_⟩
    intro m hm
    have hx : Linked h x x := hr.2.1
    have h1 : m ≠ x := fun e => hm (by simp [e])
    rw [node_eq_iff, unlink_next, unlink_prev, hx.1, hx.2]
    simp [h1, Ne.symm h1]
  | cons n G =>
    obtain ⟨F, p, hF⟩ := exists_concat n G
    exact ring_unlink_aux rfl hF hr

theorem ring_link_aux {h : Heap} {c e n p : Nat} {r F G : List Nat}
    (hA : r = n :: G) (hB : r = F ++ [p]) (hr : Ring h (c :: r))
    (he : e ∉ c :: r) (hu : Unlinked h e) :
    Ring (list_base.link h e c) (c :: e :: r) ∧
      ∀ m, m ∉ c :: r → m ≠ e → list_base.link h e c m = h m := by
  obtain ⟨hnd, hp⟩ := hr
  have e1 : (c :: r) ++ (c :: r).take 1 = c :: (r ++ [c]) := by simp
  have hQ : r ++ [c] = n :: (G ++ [c]) := by rw [hA]; simp
  rw [e1, path_cons hQ, path_join hB rfl] at hp
  obtain ⟨hcn, hpr, hpc, -⟩ := hp
  have hcr : c ∉ r := (List.nodup_cons.1 hnd).1
  have hrn : r.Nodup := (List.nodup_cons.1 hnd).2
  have hec : c ≠ e := fun e' => he (by simp [e'])
  have her : e ∉ r := fun e' => he (by simp [e'])
  have hnG : n ∉ G := by rw [hA] at hrn; exact (List.nodup_cons.1 hrn).1
  have hpF : p ∉ F := by
    rw [hB] at hrn
    have := List.nodup_append.1 hrn
    intro hp'; exact this.2.2 hp' (by simp)
  have hpr' : p ∈ r := by rw [hB]; simp
  have hnr' : n ∈ r := by rw [hA]; simp
  have hnext : ∀ m, (list_base.link h e c m).next =
      if m = c then some e else if m = e then some n else (h m).next := by
    intro m; rw [link_next _ _ _ _ hec, unlink_of_unlinked hu, hcn.1]
  have hprev : ∀ m, (list_base.link h e c m).prev =
      if n = m then some e else if m = e then some c else (h m).prev := by
    intro m; rw [link_prev _ _ _ _ hec, unlink_of_unlinked hu, hcn.1]; simp
  have hne : n ≠ e := fun e' => her (e' ▸ hnr')
  have hnc : n ≠ c := fun e' => hcr (e' ▸ hnr')
  have hpe : p ≠ e := fun e' => her (e' ▸ hpr')
  have hpc' : p ≠ c := fun e' => hcr (e' ▸ hpr')
  refine ⟨⟨?_, ?_⟩, ?_⟩
  · rw [List.nodup_cons]
    refine ⟨?_, List.nodup_cons.2 ⟨her, hrn⟩⟩
    simp [hec, hcr]
  · have e2 : (c :: e :: r) ++ (c :: e :: r).take 1 = c :: e :: (r ++ [c]) := by simp
    rw [e2, path_cons rfl, path_cons hQ, path_join hB rfl]
    refine ⟨⟨?_, ?_⟩, ⟨?_, ?_⟩, path_frame hpr ?_ ?_, ⟨?_, ?_⟩, trivial⟩
    · rw [hnext]; simp
    · rw [hprev]; simp [hne]
    · rw [hnext]; simp [Ne.symm hec]
    · rw [hprev]; simp
    · intro a ha
      rw [hB, List.dropLast_concat] at ha
      have har : a ∈ r := by rw [hB]; simp [ha]
      have h1 : a ≠ c := fun e' => hcr (e' ▸ har)
      have h2 : a ≠ e := fun e' => her (e' ▸ har)
      rw [hnext]; simp [h1, h2]
    · intro b hb
      rw [hA, List.tail_cons] at hb
      have hbr : b ∈ r := by rw [hA]; simp [hb]
      have h1 : b ≠ e := fun e' => her (e' ▸ hbr)
      have h2 : n ≠ b := fun e' => hnG (e' ▸ hb)
      rw [hprev]; simp [h1, h2]
    · rw [hnext]; simp [hpe, hpc']; exact hpc.1
    · rw [hprev]; simp [hnc, hec]; exact hpc.2
  · intro m hm hme
    have h1 : m ≠ c := fun e' => hm (by simp [e'])
    have h3 : n ≠ m := fun e' => hm (by rw [← e']; simp [hnr'])
    rw [node_eq_iff, hnext, hprev]; simp [h1, hme, h3]

/-- Linking an unlinked node `e` after the node `c` of a ring puts `e` right after `c`. -/
theorem ring_link {h : Heap} {c e : Nat} {r : List Nat} (hr : Ring h (c :: r))
    (he : e ∉ c :: r) (hu : Unlinked h e) :
    Ring (list_base.link h e c) (c :: e :: r) ∧
      ∀ m, m ∉ c :: r → m ≠ e → list_base.link h e c m = h m := by
  cases r with
  | nil =>
    have hc : Linked h c c := hr.2.1
    have hec : c ≠ e := fun e' => he (by simp [e'])
    have hnext : ∀ m, (list_base.link h e c m).next =
        if m = c then some e else if m = e then some c else (h m).next := by
      intro m; rw [link_next _ _ _ _ hec, unlink_of_unlinked hu, hc.1]
    have hprev : ∀ m, (list_base.link h e c m).prev =
        if c = m then some e else if m = e then some c else (h m).prev := by
      intro m; rw [link_prev _ _ _ _ hec, unlink_of_unlinked hu, hc.1]; simp
    refine ⟨⟨by simp [hec], ⟨?_, ?_⟩, ⟨?_, ?_⟩, trivial⟩, ?_⟩
    · rw [hnext]; simp
    · rw [hprev]; simp [hec]
    · rw [hnext]; simp [Ne.symm hec]
    · rw [hprev]; simp
    · intro m hm hme
      have h1 : m ≠ c := fun e' => hm (by simp [e'])
      rw [node_eq_iff, hnext, hprev]; simp [h1, hme, Ne.symm h1]
  | cons n G =>
    obtain ⟨F, p, hF⟩ := exists_concat n G
    exact ring_link_aux rfl hF hr he hu

/-- The heap computed by the six assignments of the general case of `splice`. -/
theorem splice_general_eq {h : Heap} {p f l lp pp fp : Nat}
    (hl : (h l).prev = some lp) (hp : (h p).prev = some pp) (hf : (h f).prev = some fp)
    (hfp : f ≠ p) :
    ∃ h1, list.splice_general h (some p) f l = some h1 ∧
      (∀ m, (h1 m).next = if m = fp then some l else if m = pp then some f
        else if m = lp then some p else (h m).next) ∧
      (∀ m, (h1 m).prev = if m = f then some pp else if m = l then some fp
        else if m = p then some lp else (h m).prev) := by
  unfold list.splice_general
  simp only [hl, setNext_prev, hp, hf]
  refine ⟨_, rfl, ?_, ?_⟩
  · intro m; simp
  · intro m; simp [hfp, hl, hp, hf]

theorem three_arcs {h h1 : Heap} {R X W M M' Y Y' Z Z' : List Nat} {f lp p xe l we pp fp : Nat}
    (hRa : R = f :: M) (hRb : R = M' ++ [lp])
    (hXa : X = p :: Y) (hXb : X = Y' ++ [xe])
    (hWa : W = l :: Z) (hWb : W = Z' ++ [we])
    (hnd : (R ++ X ++ W).Nodup)
    (hends : (pp = xe ∧ fp = we) ∨ (pp = we ∧ fp = xe))
    (hR : Path h R) (hX : Path h X) (hW : Path h W)
    (hnext : ∀ m, (h1 m).next = if m = fp then some l else if m = pp then some f
        else if m = lp then some p else (h m).next)
    (hprev : ∀ m, (h1 m).prev = if m = f then some pp else if m = l then some fp
        else if m = p then some lp else (h m).prev) :
    Path h1 R ∧ Path h1 X ∧ Path h1 W ∧ Linked h1 lp p ∧ Linked h1 pp f ∧ Linked h1 fp l := by
  have hA : ((f :: M) ++ (p :: Y) ++ (l :: Z)).Nodup := by rw [← hRa, ← hXa, ← hWa]; exact hnd
  have hB : ((M' ++ [lp]) ++ (Y' ++ [xe]) ++ (Z' ++ [we])).Nodup := by
    rw [← hRb, ← hXb, ← hWb]; exact hnd
  have key1 : ∀ a, a ∈ M' ∨ a ∈ Y' ∨ a ∈ Z' → a ≠ lp ∧ a ≠ xe ∧ a ≠ we := by
    intro a ha
    rcases ha with ha | ha | ha <;> refine ⟨?_, ?_, ?_⟩ <;> rintro rfl <;>
      simp [List.nodup_append, ha] at hB
  have key2 : ∀ b, b ∈ M ∨ b ∈ Y ∨ b ∈ Z → b ≠ f ∧ b ≠ p ∧ b ≠ l := by
    intro a ha
    rcases ha with ha | ha | ha <;> refine ⟨?_, ?_, ?_⟩ <;> rintro rfl <;>
      simp [List.nodup_append, ha] at hA
  have key3 : lp ≠ xe ∧ lp ≠ we ∧ xe ≠ we := by
    refine ⟨?_, ?_, ?_⟩ <;> rintro rfl <;> simp [List.nodup_append] at hB
  have key4 : f ≠ p ∧ f ≠ l ∧ p ≠ l := by
    refine ⟨?_, ?_, ?_⟩ <;> rintro rfl <;> simp [List.nodup_append] at hA
  have fnext : ∀ a, a ∈ M' ∨ a ∈ Y' ∨ a ∈ Z' → (h1 a).next = (h a).next := by
    intro a ha
    obtain ⟨k1, k2, k3⟩ := key1 a ha
    rw [hnext]
    rcases hends with ⟨e1, e2⟩ | ⟨e1, e2⟩ <;> subst e1 e2 <;> simp [k1, k2, k3]
  have fprev : ∀ b, b ∈ M ∨ b ∈ Y ∨ b ∈ Z → (h1 b).prev = (h b).prev := by
    intro b hb
    obtain ⟨k1, k2, k3⟩ := key2 b hb
    rw [hprev]; simp [k1, k2, k3]
  obtain ⟨k1, k2, k3⟩ := key3
  obtain ⟨k4, k5, k6⟩ := key4
  refine ⟨path_frame hR ?_ ?_, path_frame hX ?_ ?_, path_frame hW ?_ ?_, ⟨?_, ?_⟩, ⟨?_, ?_⟩, ⟨?_, ?_⟩⟩
  · intro a ha; rw [hRb, List.dropLast_concat] at ha; exact fnext a (Or.inl ha)
  · intro a ha; rw [hRa, List.tail_cons] at ha; exact fprev a (Or.inl ha)
  · intro a ha; rw [hXb, List.dropLast_concat] at ha; exact fnext a (Or.inr (Or.inl ha))
  · intro a ha; rw [hXa, List.tail_cons] at ha; exact fprev a (Or.inr (Or.inl ha))
  · intro a ha; rw [hWb, List.dropLast_concat] at ha; exact fnext a (Or.inr (Or.inr ha))
  · intro a ha; rw [hWa, List.tail_cons] at ha; exact fprev a (Or.inr (Or.inr ha))
  · rw [hnext]; rcases hends with ⟨e1, e2⟩ | ⟨e1, e2⟩ <;> subst e1 e2 <;> simp [k1, k2]
  · rw [hprev]; simp [Ne.symm k4, k6]
  · rw [hnext]; rcases hends with ⟨e1, e2⟩ | ⟨e1, e2⟩ <;> subst e1 e2 <;> simp [k3, Ne.symm k3]
  · rw [hprev]; simp
  · rw [hnext]; simp
  · rw [hprev]; simp [Ne.symm k5]


/-- The general rewiring between two rings: the arc `R` leaves the ring `R ++ S` and enters
the ring `D` right before the head of `D`. -/
theorem ring_splice_cross {h : Heap} {R D S M M' Y Y' Z Z' : List Nat} {f lp p pp l fp : Nat}
    (hRa : R = f :: M) (hRb : R = M' ++ [lp])
    (hDa : D = p :: Y) (hDb : D = Y' ++ [pp])
    (hSa : S = l :: Z) (hSb : S = Z' ++ [fp])
    (hD : Ring h D) (hS : Ring h (R ++ S)) (hnd : (R ++ D ++ S).Nodup) :
    ∃ h1, list.splice_general h (some p) f l = some h1 ∧ Ring h1 (R ++ D) ∧ Ring h1 S ∧
      ∀ m, m ∉ R ++ D ++ S → h1 m = h m := by
  have hpD := hD.2
  have hpS := hS.2
  have e1 : D ++ D.take 1 = D ++ [p] := by rw [hDa]; simp
  have e2 : (R ++ S) ++ (R ++ S).take 1 = R ++ (S ++ [f]) := by rw [hRa]; simp
  have q1 : S ++ [f] = l :: (Z ++ [f]) := by rw [hSa]; simp
  have q2 : D ++ [f] = p :: (Y ++ [f]) := by rw [hDa]; simp
  rw [e1, path_join hDb rfl] at hpD
  rw [e2, path_join hRb q1, path_join hSb rfl] at hpS
  obtain ⟨pD, lpp, -⟩ := hpD
  obtain ⟨pR, llp, pS, lfp, -⟩ := hpS
  have hfp : f ≠ p := by
    rintro rfl
    rw [hRa, hDa] at hnd
    simp [List.nodup_append] at hnd
  obtain ⟨h1, hs, hnext, hprev⟩ := splice_general_eq llp.2 lpp.2 lfp.2 hfp
  obtain ⟨r1, r2, r3, r4, r5, r6⟩ :=
    three_arcs hRa hRb hDa hDb hSa hSb hnd (Or.inl ⟨rfl, rfl⟩) pR pD pS hnext hprev
  refine ⟨h1, hs, ⟨?_, ?_⟩, ⟨?_, ?_⟩, ?_⟩
  · exact List.Nodup.of_append_left hnd
  · have e3 : (R ++ D) ++ (R ++ D).take 1 = R ++ (D ++ [f]) := by rw [hRa]; simp
    rw [e3, path_join hRb q2, path_join hDb rfl]
    exact ⟨r1, r4, r2, r5, trivial⟩
  · exact List.Nodup.of_append_right hnd
  · have e4 : S ++ S.take 1 = S ++ [l] := by rw [hSa]; simp
    rw [e4, path_join hSb rfl]
    exact ⟨r3, r6, trivial⟩
  · intro m hm
    have m1 : m ≠ f := by rintro rfl; exact hm (by rw [hRa]; simp)
    have m2 : m ≠ lp := by rintro rfl; exact hm (by rw [hRb]; simp)
    have m3 : m ≠ p := by rintro rfl; exact hm (by rw [hDa]; simp)
    have m4 : m ≠ pp := by rintro rfl; exact hm (by rw [hDb]; simp)
    have m5 : m ≠ l := by rintro rfl; exact hm (by rw [hSa]; simp)
    have m6 : m ≠ fp := by rintro rfl; exact hm (by rw [hSb]; simp)
    rw [node_eq_iff, hnext, hprev]; simp [m1, m2, m3, m4, m5, m6]

/-- The general rewiring inside one ring: the arc `R` moves from before `S1` to before
the head of `S2`, which swaps the two arcs `S1` and `S2`. -/
theorem ring_splice_same {h : Heap} {R S1 S2 M M' Y Y' Z Z' : List Nat}
    {f lp p pp l fp : Nat}
    (hRa : R = f :: M) (hRb : R = M' ++ [lp])
    (h1a : S1 = l :: Z) (h1b : S1 = Z' ++ [pp])
    (h2a : S2 = p :: Y) (h2b : S2 = Y' ++ [fp])
    (hr : Ring h (R ++ S1 ++ S2)) :
    ∃ h1, list.splice_general h (some p) f l = some h1 ∧ Ring h1 (R ++ S2 ++ S1) ∧
      ∀ m, m ∉ R ++ S1 ++ S2 → h1 m = h m := by
  obtain ⟨hnd, hp⟩ := hr
  have hnd2 : (R ++ S2 ++ S1).Nodup := by
    refine (List.Perm.nodup_iff ?_).1 hnd
    rw [List.append_assoc, List.append_assoc]
    exact List.Perm.append_left R List.perm_append_comm
  have e1 : (R ++ S1 ++ S2) ++ (R ++ S1 ++ S2).take 1 = R ++ (S1 ++ (S2 ++ [f])) := by
    rw [hRa]; simp
  have q1 : S1 ++ (S2 ++ [f]) = l :: (Z ++ (S2 ++ [f])) := by rw [h1a]; simp
  have q2 : S2 ++ [f] = p :: (Y ++ [f]) := by rw [h2a]; simp
  rw [e1, path_join hRb q1, path_join h1b q2, path_join h2b rfl] at hp
  obtain ⟨pR, llp, pS1, lpp, pS2, lfp, -⟩ := hp
  have hfp : f ≠ p := by
    rintro rfl
    rw [hRa, h2a] at hnd
    simp [List.nodup_append] at hnd
  obtain ⟨h1, hs, hnext, hprev⟩ := splice_general_eq llp.2 lpp.2 lfp.2 hfp
  obtain ⟨r1, r2, r3, r4, r5, r6⟩ :=
    three_arcs hRa hRb h2a h2b h1a h1b hnd2 (Or.inr ⟨rfl, rfl⟩) pR pS2 pS1 hnext hprev
  refine ⟨h1, hs, ⟨hnd2, ?_⟩, ?_⟩
  · have e3 : (R ++ S2 ++ S1) ++ (R ++ S2 ++ S1).take 1 = R ++ (S2 ++ (S1 ++ [f])) := by
      rw [hRa]; simp
    have q3 : S2 ++ (S1 ++ [f]) = p :: (Y ++ (S1 ++ [f])) := by rw [h2a]; simp
    have q4 : S1 ++ [f] = l :: (Z ++ [f]) := by rw [h1a]; simp
    rw [e3, path_join hRb q3, path_join h2b q4, path_join h1b rfl]
    exact ⟨r1, r4, r2, r6, r3, r5, trivial⟩
  · intro m hm
    have m1 : m ≠ f := by rintro rfl; exact hm (by rw [hRa]; simp)
    have m2 : m ≠ lp := by rintro rfl; exact hm (by rw [hRb]; simp)
    have m3 : m ≠ p := by rintro rfl; exact hm (by rw [h2a]; simp)
    have m4 : m ≠ pp := by rintro rfl; exact hm (by rw [h1b]; simp)
    have m5 : m ≠ l := by rintro rfl; exact hm (by rw [h1a]; simp)
    have m6 : m ≠ fp := by rintro rfl; exact hm (by rw [h2b]; simp)
    rw [node_eq_iff, hnext, hprev]; simp [m1, m2, m3, m4, m5, m6]

theorem ring_frame {h h1 : Heap} {r : List Nat} (hr : Ring h r)
    (hf : ∀ m ∈ r, h1 m = h m) : Ring h1 r := by
  refine ⟨hr.1, path_frame hr.2 ?_ ?_⟩
  · intro a ha
    have := List.mem_of_mem_dropLast ha
    rw [hf a ?_]
    rcases List.mem_append.1 this with h2 | h2
    · exact h2
    · exact List.mem_of_mem_take h2
  · intro a ha
    have := List.mem_of_mem_tail ha
    rw [hf a ?_]
    rcases List.mem_append.1 this with h2 | h2
    · exact h2
    · exact List.mem_of_mem_take h2

/-- Every node of a ring has a direct predecessor and a direct successor in the ring. -/
theorem ring_neighbours {h : Heap} {r : List Nat} (hr : Ring h r) {a : Nat} (ha : a ∈ r) :
    ∃ pa na, pa ∈ r ∧ na ∈ r ∧ Linked h pa a ∧ Linked h a na := by
  obtain ⟨A, B, rfl⟩ := List.append_of_mem ha
  have h2 : Ring h (a :: B ++ A) := by
    have := (ring_rotate hr)
    simpa using this
  obtain ⟨F, pa, hF⟩ := exists_concat a (B ++ A)
  have hp := h2.2
  have e1 : (a :: B ++ A) ++ (a :: B ++ A).take 1 = (a :: (B ++ A)) ++ [a] := by simp
  rw [e1, path_join hF rfl] at hp
  have hpa : pa ∈ A ++ a :: B := by
    have : pa ∈ a :: (B ++ A) := by rw [hF]; simp
    simp at this ⊢; tauto
  cases hBA : B ++ A with
  | nil =>
    have hB : B = [] := by cases B <;> simp_all
    have hA : A = [] := by cases A <;> simp_all
    subst hB hA
    have hl : Linked h a a := h2.2.1
    exact ⟨a, a, by simp, by simp, hl, hl⟩
  | cons n G =>
    have hp2 := h2.2
    have e2 : (a :: B ++ A) ++ (a :: B ++ A).take 1 = a :: ((B ++ A) ++ [a]) := by simp
    have q : (B ++ A) ++ [a] = n :: (G ++ [a]) := by rw [hBA]; simp
    rw [e2, path_cons q] at hp2
    have hna : n ∈ A ++ a :: B := by
      have : n ∈ B ++ A := by rw [hBA]; simp
      simp at this ⊢; tauto
    exact ⟨pa, n, hpa, hna, hp.2.1, hp2.1⟩

/-- Inside a ring the structural `operator==` of two nodes is node identity. -/
theorem ring_op_eq {h : Heap} {r : List Nat} (hr : Ring h r) {a b : Nat}
    (ha : a ∈ r) (hb : b ∈ r) : list_base.op_eq (h a) (h b) = decide (a = b) := by
  by_cases hab : a = b
  · subst hab; simp [list_base.op_eq]
  · obtain ⟨pa, _, _, _, hpa, _⟩ := (ring_neighbours hr) ha
    obtain ⟨pb, _, _, _, hpb, _⟩ := (ring_neighbours hr) hb
    have : (h a).prev ≠ (h b).prev := by
      rw [hpa.2, hpb.2]
      intro e
      have e' : pa = pb := by simpa using e
      subst e'
      have := hpa.1.symm.trans hpb.1
      exact hab (by simpa using this)
    simp [list_base.op_eq, this, hab]

theorem getLastD_of_concat {s p : Nat} {A F : List Nat} (hF : s :: A = F ++ [p]) :
    A.getLastD s = p := by
  have := congrArg List.getLast? hF
  simpa [List.getLast?_cons] using this

theorem headD_of_cons {s n : Nat} {C G : List Nat} (hC : C ++ [s] = n :: G) :
    C.headD s = n := by
  cases C with
  | nil => simp at hC; simp [hC.1]
  | cons c C => simp at hC; simp [hC.1]

/-- In a well-formed list the node before a position is directly followed by the node at
the position; the sentinel stands before the first element and at the position `end()`. -/
theorem wf_linked {h : Heap} {s : Nat} {A C : List Nat} (hw : WF h s (A ++ C)) :
    Linked h (A.getLastD s) (C.headD s) := by
  obtain ⟨F, p, hF⟩ := exists_concat s A
  obtain ⟨n, G, hG⟩ : ∃ n G, C ++ [s] = n :: G := by
    cases C with
    | nil => exact ⟨s, [], rfl⟩
    | cons c C => exact ⟨c, C ++ [s], rfl⟩
  rw [getLastD_of_concat hF, headD_of_cons hG]
  have hp := hw.2
  have e1 : (s :: (A ++ C)) ++ (s :: (A ++ C)).take 1 = (s :: A) ++ (C ++ [s]) := by simp
  rw [e1, path_join hF hG] at hp
  exact hp.2.1

theorem wf_nodup {h : Heap} {s : Nat} {l : List Nat} (hw : WF h s l) : (s :: l).Nodup := hw.1

/-- Unlinking an element of a well-formed list removes it and keeps the other elements in
order; nodes outside the list are untouched. -/
theorem wf_unlink {h : Heap} {s x : Nat} {A C : List Nat} (hw : WF h s (A ++ x :: C)) :
    WF (list_base.unlink h x) s (A ++ C) ∧
      ∀ m, m ∉ s :: (A ++ x :: C) → list_base.unlink h x m = h m := by
  have h1 : Ring h (x :: C ++ (s :: A)) := by
    have : Ring h ((s :: A) ++ (x :: C)) := by simpa [WF] using hw
    simpa using (ring_rotate this)
  obtain ⟨h2, h3⟩ := ring_unlink h1
  refine ⟨?_, ?_⟩
  · have : Ring (list_base.unlink h x) ((s :: A) ++ C) := (ring_rotate h2)
    simpa [WF] using this
  · intro m hm
    apply h3
    simp at hm ⊢
    tauto

/-- Linking an unlinked node after the node that stands before a position inserts it at
that position. -/
theorem wf_link {h : Heap} {s e : Nat} {A C : List Nat} (hw : WF h s (A ++ C))
    (he : e ∉ s :: (A ++ C)) (hu : Unlinked h e) :
    WF (list_base.link h e (A.getLastD s)) s (A ++ e :: C) ∧
      ∀ m, m ∉ s :: (A ++ C) → m ≠ e → list_base.link h e (A.getLastD s) m = h m := by
  obtain ⟨F, c, hF⟩ := exists_concat s A
  rw [getLastD_of_concat hF]
  have h0 : Ring h ((s :: A) ++ C) := by simpa [WF] using hw
  rw [hF] at h0
  have h1 : Ring h (c :: (C ++ F)) := by
    have : Ring h (F ++ (c :: C)) := by simpa using h0
    simpa using (ring_rotate this)
  have hmem : ∀ m, m ∈ c :: (C ++ F) ↔ m ∈ s :: (A ++ C) := by
    intro m
    have : m ∈ s :: A ↔ m ∈ F ++ [c] := by rw [hF]
    simp at this ⊢
    tauto
  obtain ⟨h2, h3⟩ := ring_link h1 (fun hm => he ((hmem e).1 hm)) hu
  refine ⟨?_, ?_⟩
  · have h4 : Ring (list_base.link h e c) ((c :: e :: C) ++ F) := by simpa using h2
    have h5 := (ring_rotate h4)
    have e5 : F ++ (c :: e :: C) = (F ++ [c]) ++ e :: C := by simp
    rw [e5, ← hF] at h5
    simpa [WF] using h5
  · intro m hm hme
    exact h3 m (fun hm' => hm ((hmem m).1 hm')) hme

theorem wf_frame {h h1 : Heap} {s : Nat} {l : List Nat} (hw : WF h s l)
    (hf : ∀ m ∈ s :: l, h1 m = h m) : WF h1 s l :=
  ring_frame hw hf

/-- Inside one well-formed list `operator==` on iterators is node identity. -/
theorem wf_iter_eq {h : Heap} {s : Nat} {l : List Nat} (hw : WF h s l) {a b : Nat}
    (ha : a ∈ s :: l) (hb : b ∈ s :: l) :
    list_iterator.op_eq h (some a) (some b) = some (decide (a = b)) := by
  simp only [list_iterator.op_eq]
  rw [ring_op_eq hw ha hb]

theorem headD_mem (s : Nat) (C : List Nat) : C.headD s ∈ s :: C := by
  cases C <;> simp

/-- `insert` of an unlinked node at the position between `A` and `C`. -/
theorem wf_insert {h : Heap} {s e : Nat} {A C : List Nat} (hw : WF h s (A ++ C))
    (he : e ∉ s :: (A ++ C)) (hu : Unlinked h e) :
    ∃ h1, list.insert h (some (C.headD s)) e = some (h1, some e) ∧
      h1 = list_base.link h e (A.getLastD s) ∧ WF h1 s (A ++ e :: C) := by
  obtain ⟨h2, h3⟩ := wf_link hw he hu
  have hl := wf_linked hw
  refine ⟨_, ?_, rfl, h2⟩
  have h4 : WF (list_base.link h e (A.getLastD s)) s ((A ++ [e]) ++ C) := by simpa using h2
  have h5 := wf_linked h4
  simp only [List.getLastD_concat] at h5
  simp only [list.insert, hl.2, h5.2]

/-- The single-element fast path of `splice` between two different lists. -/
theorem splice_single_cross {h : Heap} {sd ss x : Nat} {D1 D2 S1 S2 : List Nat}
    (hd : WF h sd (D1 ++ D2)) (hs : WF h ss (S1 ++ x :: S2))
    (hnd : ((sd :: (D1 ++ D2)) ++ (ss :: (S1 ++ x :: S2))).Nodup) :
    ∃ h1, list.splice_single h (some (D2.headD sd)) x = some h1 ∧
      WF h1 sd (D1 ++ x :: D2) ∧ WF h1 ss (S1 ++ S2) ∧
      ∀ m, m ∉ (sd :: (D1 ++ D2)) ++ (ss :: (S1 ++ x :: S2)) → h1 m = h m := by
  have hdis := List.disjoint_of_nodup_append hnd
  obtain ⟨u1, u2⟩ := wf_unlink hs
  have hd1 : WF (list_base.unlink h x) sd (D1 ++ D2) :=
    wf_frame hd (fun m hm => u2 m (fun hm' => hdis hm hm'))
  have hx : x ∉ sd :: (D1 ++ D2) := fun hm => hdis hm (by simp)
  obtain ⟨h1, i1, i2, i3⟩ := wf_insert hd1 hx (unlink_unlinked h x)
  obtain ⟨-, l2⟩ := wf_link hd1 hx (unlink_unlinked h x)
  have hxs : x ∉ ss :: (S1 ++ S2) := by
    have := (wf_nodup hs)
    simp [List.nodup_append] at this ⊢
    tauto
  refine ⟨h1, by rw [list.splice_single, i1]; rfl, i3, ?_, ?_⟩
  · apply wf_frame u1
    intro m hm
    rw [i2]
    apply l2 m
    · intro hm'
      refine hdis hm' ?_
      simp at hm ⊢; tauto
    · rintro rfl; exact hxs hm
  · intro m hm
    rw [i2, l2 m, u2 m]
    · intro hm'; exact hm (List.mem_append_right _ hm')
    · intro hm'; exact hm (List.mem_append_left _ hm')
    · rintro rfl; exact hm (by simp)


theorem rot_view (s : Nat) (A C : List Nat) : ∃ Y, C ++ s :: A = C.headD s :: Y := by
  cases C with
  | nil => exact ⟨A, rfl⟩
  | cons c C => exact ⟨C ++ s :: A, rfl⟩

/-- Splice between two different well-formed lists: the range `R` leaves `S1 ++ R ++ S2`
and enters `D1 ++ D2` at the position of `D2`. -/
theorem splice_cross_wf (h : Heap) (sd ss : Nat) (D1 D2 S1 R S2 : List Nat)
    (hd : WF h sd (D1 ++ D2)) (hs : WF h ss (S1 ++ R ++ S2))
    (hnd : ((sd :: (D1 ++ D2)) ++ (ss :: (S1 ++ R ++ S2))).Nodup) :
    ∃ h1, list.splice h sd ss (some (D2.headD sd)) (some ((R ++ S2).headD ss))
        (some (S2.headD ss)) = some h1 ∧
      WF h1 sd (D1 ++ R ++ D2) ∧ WF h1 ss (S1 ++ S2) ∧
      ∀ m, m ∉ (sd :: (D1 ++ D2)) ++ (ss :: (S1 ++ R ++ S2)) → h1 m = h m := by
  have hsd : sd ≠ ss := by
    rintro rfl
    have := List.disjoint_of_nodup_append hnd
    exact this (List.mem_cons_self _ _) (List.mem_cons_self _ _)
  have hfm : (R ++ S2).headD ss ∈ ss :: (S1 ++ R ++ S2) := by
    have := headD_mem ss (R ++ S2)
    simp at this ⊢; tauto
  have hlm : S2.headD ss ∈ ss :: (S1 ++ R ++ S2) := by
    have := headD_mem ss S2
    simp at this ⊢; tauto
  have heq := wf_iter_eq hs hfm hlm
  unfold list.splice
  simp only [if_neg hsd, heq]
  cases R with
  | nil =>
    refine ⟨h, by simp, by simpa using hd, by simpa using hs, fun _ _ => rfl⟩
  | cons x R =>
    have hs1 : WF h ss ((S1 ++ [x]) ++ (R ++ S2)) := by simpa using hs
    have hxn := wf_linked hs1
    simp only [List.getLastD_concat] at hxn
    have hsn := (wf_nodup hs)
    have hxl : x ≠ S2.headD ss := by
      intro e
      have h1 := headD_mem ss S2
      rw [← e] at h1
      simp [List.nodup_append] at hsn h1
      tauto
    have e0 : (x :: R ++ S2).headD ss = x := rfl
    simp only [e0, hxl, decide_False]
    cases R with
    | nil =>
      have e1 : ([] ++ S2).headD ss = S2.headD ss := rfl
      rw [e1] at hxn
      simp only [hxn.1, if_true]
      have hs2 : WF h ss (S1 ++ x :: S2) := by simpa using hs
      have hnd2 : ((sd :: (D1 ++ D2)) ++ (ss :: (S1 ++ x :: S2))).Nodup := by simpa using hnd
      obtain ⟨h1, k1, k2, k3, k4⟩ := splice_single_cross hd hs2 hnd2
      exact ⟨h1, k1, by simpa using k2, k3, by simpa using k4⟩
    | cons y R =>
      have e1 : (y :: R ++ S2).headD ss = y := rfl
      rw [e1] at hxn
      have hyl : y ≠ S2.headD ss := by
        intro e
        have h1 := headD_mem ss S2
        rw [← e] at h1
        simp [List.nodup_append] at hsn h1
        tauto
      have hne : ¬ (h x).next = some (S2.headD ss) := by
        rw [hxn.1]; simpa using hyl
      simp only [hne, if_false]
      obtain ⟨M', lp, hRb⟩ := exists_concat x (y :: R)
      obtain ⟨Y, hDa⟩ := rot_view sd D1 D2
      obtain ⟨Y', pp, hDb⟩ := exists_concat (D2.headD sd) Y
      obtain ⟨Z, hSa⟩ := rot_view ss S1 S2
      obtain ⟨Z', fp, hSb⟩ := exists_concat (S2.headD ss) Z
      have hD : Ring h (D2 ++ sd :: D1) := by
        have : Ring h ((sd :: D1) ++ D2) := by simpa [WF] using hd
        exact (ring_rotate this)
      have hS : Ring h ((x :: y :: R) ++ (S2 ++ ss :: S1)) := by
        have : Ring h ((ss :: S1) ++ ((x :: y :: R) ++ S2)) := by simpa [WF] using hs
        simpa using (ring_rotate this)
      have hnd3 : ((x :: y :: R) ++ (D2 ++ sd :: D1) ++ (S2 ++ ss :: S1)).Nodup := by
        refine (List.Perm.nodup_iff ?_).1 hnd
        rw [List.perm_iff_count]
        intro a
        simp only [List.count_append, List.count_cons, List.count_nil]
        omega
      obtain ⟨h1, k1, k2, k3, k4⟩ :=
        ring_splice_cross rfl hRb hDa (hDa.trans hDb) hSa (hSa.trans hSb) hD hS hnd3
      refine ⟨h1, k1, ?_, ?_, ?_⟩
      · have : Ring h1 (((x :: y :: R) ++ D2) ++ (sd :: D1)) := by simpa using k2
        simpa [WF] using (ring_rotate this)
      · have := (ring_rotate k3)
        simpa [WF] using this
      · intro m hm
        apply k4
        simp at hm ⊢
        tauto

/-- The single-element fast path of `splice` inside one list: `x` leaves its place and is
inserted at the position between `P` and `Q` of the remaining elements. -/
theorem splice_single_same {h : Heap} {s x : Nat} {A C P Q : List Nat}
    (hw : WF h s (A ++ x :: C)) (hPQ : A ++ C = P ++ Q) :
    ∃ h1, list.splice_single h (some (Q.headD s)) x = some h1 ∧ WF h1 s (P ++ x :: Q) ∧
      ∀ m, m ∉ s :: (A ++ x :: C) → h1 m = h m := by
  obtain ⟨u1, u2⟩ := wf_unlink hw
  rw [hPQ] at u1
  have hx : x ∉ s :: (P ++ Q) := by
    have := (wf_nodup hw)
    rw [← hPQ]
    simp [List.nodup_append] at this ⊢
    tauto
  obtain ⟨h1, i1, i2, i3⟩ := wf_insert u1 hx (unlink_unlinked h x)
  obtain ⟨-, l2⟩ := wf_link u1 hx (unlink_unlinked h x)
  refine ⟨h1, by rw [list.splice_single, i1]; rfl, i3, ?_⟩
  intro m hm
  rw [i2, l2 m, u2 m hm]
  · intro hm'
    apply hm
    have : m ∈ s :: (A ++ C) := by rw [hPQ]; exact hm'
    simp at this ⊢; tauto
  · rintro rfl; exact hm (by simp)

theorem splice_same_before (h : Heap) (s b : Nat) (A B R C : List Nat)
    (hw : WF h s (A ++ b :: B ++ R ++ C)) :
    ∃ h1, list.splice h s s (some b) (some ((R ++ C).headD s)) (some (C.headD s)) = some h1 ∧
      WF h1 s (A ++ R ++ b :: B ++ C) ∧
      ∀ m, m ∉ s :: (A ++ b :: B ++ R ++ C) → h1 m = h m := by
  have hsn := (wf_nodup hw)
  have hfm : (R ++ C).headD s ∈ s :: (A ++ b :: B ++ R ++ C) := by
    have := headD_mem s (R ++ C)
    simp at this ⊢; tauto
  have hlm : C.headD s ∈ s :: (A ++ b :: B ++ R ++ C) := by
    have := headD_mem s C
    simp at this ⊢; tauto
  have hbm : b ∈ s :: (A ++ b :: B ++ R ++ C) := by simp
  have hlb : C.headD s ≠ b := by
    intro e
    have h1 := headD_mem s C
    rw [e] at h1
    simp [List.nodup_append] at hsn h1
    tauto
  unfold list.splice
  simp only [if_true, wf_iter_eq hw hlm hbm, wf_iter_eq hw hfm hlm, hlb, decide_False]
  cases R with
  | nil =>
    refine ⟨h, by simp, by simpa using hw, fun _ _ => rfl⟩
  | cons x R =>
    have hs1 : WF h s ((A ++ b :: B ++ [x]) ++ (R ++ C)) := by simpa using hw
    have hxn := wf_linked hs1
    simp only [List.getLastD_concat] at hxn
    have hxl : x ≠ C.headD s := by
      intro e
      have h1 := headD_mem s C
      rw [← e] at h1
      simp [List.nodup_append] at hsn h1
      tauto
    have e0 : (x :: R ++ C).headD s = x := rfl
    simp only [e0, hxl, decide_False]
    cases R with
    | nil =>
      have e1 : ([] ++ C).headD s = C.headD s := rfl
      rw [e1] at hxn
      simp only [hxn.1, if_true]
      have hs2 : WF h s ((A ++ b :: B) ++ x :: C) := by simpa using hw
      have hPQ : (A ++ b :: B) ++ C = A ++ (b :: B ++ C) := by simp
      obtain ⟨h1, k1, k2, k3⟩ := splice_single_same hs2 hPQ
      exact ⟨h1, k1, by simpa using k2, by simpa using k3⟩
    | cons y R =>
      have e1 : (y :: R ++ C).headD s = y := rfl
      rw [e1] at hxn
      have hyl : y ≠ C.headD s := by
        intro e
        have h1 := headD_mem s C
        rw [← e] at h1
        simp [List.nodup_append] at hsn h1
        tauto
      have hne : ¬ (h x).next = some (C.headD s) := by
        rw [hxn.1]; simpa using hyl
      simp only [hne, if_false]
      obtain ⟨M', lp, hRb⟩ := exists_concat x (y :: R)
      obtain ⟨Z, h1a⟩ := rot_view s A C
      obtain ⟨Z', pp, h1b⟩ := exists_concat (C.headD s) Z
      obtain ⟨Y', fp, h2b⟩ := exists_concat b B
      have hr : Ring h ((x :: y :: R) ++ (C ++ s :: A) ++ (b :: B)) := by
        have : Ring h ((s :: A ++ b :: B) ++ ((x :: y :: R) ++ C)) := by simpa [WF] using hw
        simpa using (ring_rotate this)
      obtain ⟨h1, k1, k2, k3⟩ :=
        ring_splice_same rfl hRb h1a (h1a.trans h1b) rfl h2b hr
      refine ⟨h1, k1, ?_, ?_⟩
      · have : Ring h1 (((x :: y :: R) ++ b :: B ++ C) ++ (s :: A)) := by simpa using k2
        simpa [WF] using (ring_rotate this)
      · intro m hm
        apply k3
        simp at hm ⊢
        tauto

theorem splice_same_after (h : Heap) (s : Nat) (A R B C : List Nat)
    (hw : WF h s (A ++ R ++ B ++ C)) :
    ∃ h1, list.splice h s s (some (C.headD s)) (some ((R ++ B ++ C).headD s))
        (some ((B ++ C).headD s)) = some h1 ∧
      WF h1 s (A ++ B ++ R ++ C) ∧ (B = [] → h1 = h) ∧
      ∀ m, m ∉ s :: (A ++ R ++ B ++ C) → h1 m = h m := by
  have hsn := (wf_nodup hw)
  have hfm : (R ++ B ++ C).headD s ∈ s :: (A ++ R ++ B ++ C) := by
    have := headD_mem s (R ++ B ++ C)
    simp at this ⊢; tauto
  have hlm : (B ++ C).headD s ∈ s :: (A ++ R ++ B ++ C) := by
    have := headD_mem s (B ++ C)
    simp at this ⊢; tauto
  have hpm : C.headD s ∈ s :: (A ++ R ++ B ++ C) := by
    have := headD_mem s C
    simp at this ⊢; tauto
  unfold list.splice
  simp only [if_true, wf_iter_eq hw hlm hpm, wf_iter_eq hw hfm hlm]
  cases B with
  | nil =>
    have e0 : ([] ++ C).headD s = C.headD s := rfl
    refine ⟨h, by simp [e0], by simpa using hw, fun _ => rfl, fun _ _ => rfl⟩
  | cons b B =>
    have e0 : (b :: B ++ C).headD s = b := rfl
    have hbp : b ≠ C.headD s := by
      intro e
      have h1 := headD_mem s C
      rw [← e] at h1
      simp [List.nodup_append] at hsn h1
      tauto
    simp only [e0, hbp, decide_False]
    cases R with
    | nil =>
      have e1 : ([] ++ (b :: B) ++ C).headD s = b := rfl
      refine ⟨h, by simp [e1], by simpa using hw, (fun e => by cases e), fun _ _ => rfl⟩
    | cons x R =>
      have hs1 : WF h s ((A ++ [x]) ++ (R ++ b :: B ++ C)) := by simpa using hw
      have hxn := wf_linked hs1
      simp only [List.getLastD_concat] at hxn
      have hxb : x ≠ b := by
        intro e
        simp [List.nodup_append] at hsn
        tauto
      have e2 : (x :: R ++ (b :: B) ++ C).headD s = x := rfl
      simp only [e2, hxb, decide_False]
      cases R with
      | nil =>
        have e1 : ([] ++ b :: B ++ C).headD s = b := rfl
        rw [e1] at hxn
        simp only [hxn.1, if_true]
        have hs2 : WF h s (A ++ x :: (b :: B ++ C)) := by simpa using hw
        have hPQ : A ++ (b :: B ++ C) = (A ++ b :: B) ++ C := by simp
        obtain ⟨h1, k1, k2, k3⟩ := splice_single_same hs2 hPQ
        exact ⟨h1, k1, by simpa using k2, (fun e => by cases e), by simpa using k3⟩
      | cons y R =>
        have e1 : (y :: R ++ b :: B ++ C).headD s = y := rfl
        rw [e1] at hxn
        have hyb : y ≠ b := by
          intro e
          simp [List.nodup_append] at hsn
          tauto
        have hne : ¬ (h x).next = some b := by
          rw [hxn.1]; simpa using hyb
        simp only [hne, if_false]
        obtain ⟨M', lp, hRb⟩ := exists_concat x (y :: R)
        obtain ⟨Z', pp, h1b⟩ := exists_concat b B
        obtain ⟨Y, h2a⟩ := rot_view s A C
        obtain ⟨Y', fp, h2b⟩ := exists_concat (C.headD s) Y
        have hr : Ring h ((x :: y :: R) ++ (b :: B) ++ (C ++ s :: A)) := by
          have : Ring h ((s :: A) ++ ((x :: y :: R) ++ b :: B ++ C)) := by simpa [WF] using hw
          simpa using (ring_rotate this)
        obtain ⟨h1, k1, k2, k3⟩ :=
          ring_splice_same rfl hRb rfl h1b h2a (h2a.trans h2b) hr
        refine ⟨h1, k1, ?_, (fun e => by cases e), ?_⟩
        · have : Ring h1 (((x :: y :: R) ++ C) ++ (s :: A ++ b :: B)) := by simpa using k2
          simpa [WF] using (ring_rotate this)
        · intro m hm
          apply k3
          simp at hm ⊢
          tauto

/-- Forward iteration from a position visits the elements from that position on. -/
theorem wf_forward_from {h : Heap} {s : Nat} {C : List Nat} :
    ∀ {A : List Nat}, WF h s (A ++ C) → ∀ fuel, C.length < fuel →
      list.forward h s fuel (some (C.headD s)) = some C := by
  induction C with
  | nil =>
    intro A hw fuel hf
    obtain ⟨k, rfl⟩ : ∃ k, fuel = k + 1 := ⟨fuel - 1, by simp at hf; omega⟩
    simp [list.forward, list_iterator.op_ne, list.end_, list_base.op_ne, list_base.op_eq]
  | cons c C ih =>
    intro A hw fuel hf
    obtain ⟨k, rfl⟩ : ∃ k, fuel = k + 1 := ⟨fuel - 1, by simp at hf; omega⟩
    have hw2 : WF h s ((A ++ [c]) ++ C) := by simpa using hw
    have hl := wf_linked hw2
    simp only [List.getLastD_concat] at hl
    have hcs : c ≠ s := by
      have := (wf_nodup hw)
      simp [List.nodup_append] at this
      intro e; subst e; tauto
    have hne : list_iterator.op_ne h (some c) (list.end_ s) = some true := by
      simp only [list_iterator.op_ne, list.end_, list_base.op_ne]
      rw [ring_op_eq hw (by simp) (by simp)]
      simp [hcs]
    have e0 : (c :: C).headD s = c := rfl
    have hk : C.length < k := by simp at hf; omega
    have hi : list_iterator.op_inc h (some c) = some (some (C.headD s)) := by
      simp only [list_iterator.op_inc, hl.1]
    rw [e0]
    simp only [list.forward, hne, hi, ih hw2 k hk, Option.map_some']

/-- Forward iteration `for (it = begin(); it != end(); ++it)` yields the contents. -/
theorem wf_forward {h : Heap} {s : Nat} {l : List Nat} (hw : WF h s l) :
    list.forward h s (l.length + 1) (list.begin h s) = some l := by
  have hw0 : WF h s ([] ++ l) := hw
  have hl : Linked h s (l.headD s) := wf_linked hw0
  rw [list.begin, hl.1]
  exact wf_forward_from hw0 _ (Nat.lt_succ_self _)

/-- Stepping back `A.length` times from a position visits the elements before it, last
one first, and stops at the first element. -/
theorem wf_backward_from {h : Heap} {s : Nat} (A : List Nat) :
    ∀ {C : List Nat}, WF h s (A ++ C) →
      list.backward h A.length (some (C.headD s)) = some (A.reverse, some ((A ++ C).headD s)) := by
  induction A using List.reverseRecOn with
  | nil => intro C _; rfl
  | append_singleton A a ih =>
    intro C hw
    have hl := wf_linked hw
    simp only [List.getLastD_concat] at hl
    have hw2 : WF h s (A ++ a :: C) := by simpa using hw
    have e0 : (a :: C).headD s = a := rfl
    have := ih hw2
    rw [e0] at this
    simp only [List.length_append, List.length_singleton, list.backward, list_iterator.op_dec,
      hl.2, this, Option.map_some', List.reverse_append, List.reverse_singleton,
      List.singleton_append, List.append_assoc]

/-- Backward iteration from `end()` yields the contents reversed and ends at `begin()`. -/
theorem wf_backward {h : Heap} {s : Nat} {l : List Nat} (hw : WF h s l) :
    list.backward h l.length (list.end_ s) = some (l.reverse, list.begin h s) := by
  have hw0 : WF h s (l ++ []) := by simpa using hw
  have h1 := wf_backward_from l hw0
  have hw1 : WF h s ([] ++ l) := hw
  have hl : Linked h s (l.headD s) := wf_linked hw1
  rw [list.begin, hl.1]
  simpa [list.end_] using h1

/-- A freshly constructed list is well formed and empty; other nodes are untouched. -/
theorem ctor_wf (h : Heap) (s : Nat) :
    WF (list.ctor h s) s [] ∧ ∀ m, m ≠ s → list.ctor h s m = h m := by
  refine ⟨⟨by simp, ⟨?_, ?_⟩, trivial⟩, ?_⟩
  · simp [list.ctor, list.close]
  · simp [list.ctor, list.close]
  · intro m hm
    simp [list.ctor, list.close, setPrev, setNext, hm]

/-- `push_back` of an unlinked node appends it. -/
theorem wf_push_back {h : Heap} {s e : Nat} {l : List Nat} (hw : WF h s l)
    (he : e ∉ s :: l) (hu : Unlinked h e) :
    ∃ h1, list.push_back h s e = some h1 ∧ WF h1 s (l ++ [e]) ∧
      ∀ m, m ∉ s :: l → m ≠ e → h1 m = h m := by
  have hw0 : WF h s (l ++ []) := by simpa using hw
  have hl := wf_linked hw0
  have he0 : e ∉ s :: (l ++ []) := by simpa using he
  obtain ⟨k1, k2⟩ := wf_link hw0 he0 hu
  refine ⟨_, ?_, k1, ?_⟩
  · simp only [list.push_back]
    have : (h s).prev = some (l.getLastD s) := hl.2
    rw [this]
  · intro m hm hme
    exact k2 m (by simpa using hm) hme

/-- `push_front` of an unlinked node prepends it. -/
theorem wf_push_front {h : Heap} {s e : Nat} {l : List Nat} (hw : WF h s l)
    (he : e ∉ s :: l) (hu : Unlinked h e) :
    WF (list.push_front h s e) s (e :: l) ∧
      ∀ m, m ∉ s :: l → m ≠ e → list.push_front h s e m = h m := by
  have hw0 : WF h s ([] ++ l) := hw
  exact wf_link hw0 he hu

theorem push_back_all_spec (s : Nat) (es : List Nat) :
    ∀ (h : Heap) (l : List Nat), WF h s l → ((s :: l) ++ es).Nodup →
      (∀ e ∈ es, Unlinked h e) →
      ∃ h1, list.push_back_all s es h = some h1 ∧ WF h1 s (l ++ es) := by
  induction es with
  | nil => intro h l hw _ _; exact ⟨h, rfl, by simpa using hw⟩
  | cons e es ih =>
    intro h l hw hnd hu
    have he : e ∉ s :: l := by
      intro hm
      exact List.disjoint_of_nodup_append hnd hm (by simp)
    obtain ⟨h1, k1, k2, k3⟩ := wf_push_back hw he (hu e (by simp))
    have hnd2 : ((s :: (l ++ [e])) ++ es).Nodup := by simpa using hnd
    have hu2 : ∀ x ∈ es, Unlinked h1 x := by
      intro x hx
      have h1x : h1 x = h x := by
        apply k3
        · intro hm
          exact List.disjoint_of_nodup_append hnd hm (by simp [hx])
        · rintro rfl
          have := (List.nodup_append.1 hnd).2.1
          simp at this
          exact this.1 hx
      unfold Unlinked
      rw [h1x]
      exact hu x (by simp [hx])
    obtain ⟨h2, j1, j2⟩ := ih h1 (l ++ [e]) k2 hnd2 hu2
    exact ⟨h2, by simp only [list.push_back_all, k1, j1], by simpa using j2⟩

theorem push_front_all_spec (s : Nat) (es : List Nat) :
    ∀ (h : Heap) (l : List Nat), WF h s l → ((s :: l) ++ es).Nodup →
      (∀ e ∈ es, Unlinked h e) →
      WF (list.push_front_all s es h) s (es.reverse ++ l) := by
  induction es with
  | nil => intro h l hw _ _; simpa [list.push_front_all] using hw
  | cons e es ih =>
    intro h l hw hnd hu
    have he : e ∉ s :: l := by
      intro hm
      exact List.disjoint_of_nodup_append hnd hm (by simp)
    obtain ⟨k2, k3⟩ := wf_push_front hw he (hu e (by simp))
    have hnd2 : ((s :: (e :: l)) ++ es).Nodup := by
      refine (List.Perm.nodup_iff ?_).1 hnd
      rw [List.perm_iff_count]
      intro a
      simp only [List.count_append, List.count_cons, List.count_nil]
      omega
    have hu2 : ∀ x ∈ es, Unlinked (list.push_front h s e) x := by
      intro x hx
      have h1x : list.push_front h s e x = h x := by
        apply k3
        · intro hm
          exact List.disjoint_of_nodup_append hnd hm (by simp [hx])
        · rintro rfl
          have := (List.nodup_append.1 hnd).2.1
          simp at this
          exact this.1 hx
      unfold Unlinked
      rw [h1x]
      exact hu x (by simp [hx])
    have := ih (list.push_front h s e) (e :: l) k2 hnd2 hu2
    simpa [list.push_front_all] using this

theorem close_wf (h : Heap) (s : Nat) :
    WF (list.close h s) s [] ∧ ∀ m, m ≠ s → list.close h s m = h m := by
  refine ⟨⟨by simp, ⟨?_, ?_⟩, trivial⟩, ?_⟩
  · simp [list.close]
  · simp [list.close]
  · intro m hm
    simp [list.close, setPrev, setNext, hm]

theorem wf_empty_iff {h : Heap} {s : Nat} {l : List Nat} (hw : WF h s l) :
    list.empty h s = true ↔ l = [] := by
  have hw0 : WF h s ([] ++ l) := hw
  have hl : Linked h s (l.headD s) := wf_linked hw0
  simp only [list.empty, hl.1, decide_eq_true_eq, Option.some.injEq]
  cases l with
  | nil => simp
  | cons a l =>
    have := (wf_nodup hw)
    simp at this ⊢
    intro e; exact this.1.1 e.symm

/-- The body of the list move operations: the elements of `old` pass to `this`, provided
that unlinking the sentinel of `this` does not write into the list `old`. -/
theorem take_over_spec {h : Heap} {this old : Nat} {l : List Nat}
    (hw : WF h old l) (ht : this ∉ old :: l)
    (hT : ∀ g : Heap, (∀ m, m ∉ old :: l → g m = h m) →
      ∀ m ∈ old :: l, list_base.unlink g this m = g m) :
    ∃ h1, list.take_over h this old = some h1 ∧ WF h1 this l ∧ WF h1 old [] := by
  have hto : this ≠ old := fun e => ht (by simp [e])
  unfold list.take_over
  rcases List.eq_nil_or_concat l with hl | ⟨F, e, hl0⟩
  · subst hl
    have he : list.empty h old = true := (wf_empty_iff hw).2 rfl
    simp only [he, if_true]
    obtain ⟨c1, c2⟩ := close_wf h this
    refine ⟨_, rfl, c1, wf_frame hw ?_⟩
    intro m hm
    have : m = old := by simpa using hm
    rw [this]
    exact c2 old (Ne.symm hto)
  · have hl : l = F ++ [e] := by simpa using hl0
    have hw' := hw
    rw [hl] at hw'
    have he : ¬ list.empty h old = true := by
      rw [wf_empty_iff hw, hl]; simp
    have hw0 : WF h old ((F ++ [e]) ++ []) := by simpa using hw'
    have hlk := wf_linked hw0
    simp only [List.getLastD_concat] at hlk
    have hp : (h old).prev = some e := hlk.2
    simp only [he, hp]
    -- unlinking the old sentinel leaves the ring of the elements
    obtain ⟨u1, u2⟩ := ring_unlink hw
    have holdl : old ∉ l := (List.nodup_cons.1 (wf_nodup hw)).1
    obtain ⟨c1, c2⟩ := close_wf (list_base.unlink h old) old
    have r2 : Ring (list.close (list_base.unlink h old) old) l :=
      ring_frame u1 (fun m hm => c2 m (fun e' => holdl (e' ▸ hm)))
    have hagree : ∀ m, m ∉ old :: l →
        list.close (list_base.unlink h old) old m = h m := by
      intro m hm
      rw [c2 m (fun e' => hm (by simp [e'])), u2 m hm]
    have hT2 := hT _ hagree
    have r3 : Ring (list_base.unlink (list.close (list_base.unlink h old) old) this) l :=
      ring_frame r2 (fun m hm => hT2 m (by simp [hm]))
    have c3 : WF (list_base.unlink (list.close (list_base.unlink h old) old) this) old [] :=
      wf_frame c1 (fun m hm => hT2 m (by simp at hm; simp [hm]))
    have het : e ≠ this := by
      rintro rfl
      exact ht (by rw [hl]; simp)
    rw [← link_unlink _ _ _ het]
    have r4 : Ring (list_base.unlink (list.close (list_base.unlink h old) old) this)
        (e :: F) := by
      rw [hl] at r3
      exact (ring_rotate r3)
    have hte : this ∉ e :: F := by
      intro hm
      apply ht
      rw [hl]
      simp at hm ⊢
      tauto
    obtain ⟨k1, k2⟩ := ring_link r4 hte (unlink_unlinked _ this)
    refine ⟨_, rfl, ?_, ?_⟩
    · have : Ring (list_base.link (list_base.unlink (list.close (list_base.unlink h old) old)
          this) this e) ([e] ++ (this :: F)) := by simpa using k1
      have := (ring_rotate this)
      rw [hl]
      simpa [WF] using this
    · apply wf_frame c3
      intro m hm
      have hmo : m = old := by simpa using hm
      subst hmo
      apply k2 m
      · intro hm'
        apply holdl
        rw [hl]
        simp at hm' ⊢
        tauto
      · exact Ne.symm hto

theorem wf_front_back {h : Heap} {s : Nat} {l : List Nat} (hw : WF h s l) :
    list.front h s = some (l.headD s) ∧ list.back h s = some (l.getLastD s) := by
  have hw0 : WF h s ([] ++ l) := hw
  have hl : Linked h s (l.headD s) := wf_linked hw0
  have hw1 : WF h s (l ++ []) := by simpa using hw
  have hl1 : Linked h (l.getLastD s) s := wf_linked hw1
  exact ⟨hl.1, hl1.2⟩

/-- C1 (cross-list splice): `dst` holds `D1 ++ D2` and `pos` is the position between `D1` and
`D2` (`dst.end()` when `D2` is empty); `src` holds `S1 ++ R ++ S2` and `[first, last)` is the
range `R` (`last` is `src.end()` when `S2` is empty).  After `dst.splice(pos, src, first, last)`
`dst` holds `D1 ++ R ++ D2`, `src` holds `S1 ++ S2`, both well formed, and no node outside
the two lists is written. -/
theorem splice_cross_lists (h : Heap) (sd ss : Nat) (D1 D2 S1 R S2 : List Nat)
    (hd : WF h sd (D1 ++ D2)) (hs : WF h ss (S1 ++ R ++ S2))
    (hnd : ((sd :: (D1 ++ D2)) ++ (ss :: (S1 ++ R ++ S2))).Nodup) :
    ∃ h1, list.splice h sd ss (some (D2.headD sd)) (some ((R ++ S2).headD ss))
        (some (S2.headD ss)) = some h1 ∧
      WF h1 sd (D1 ++ R ++ D2) ∧ WF h1 ss (S1 ++ S2) ∧
      ∀ m, m ∉ (sd :: (D1 ++ D2)) ++ (ss :: (S1 ++ R ++ S2)) → h1 m = h m :=
  splice_cross_wf h sd ss D1 D2 S1 R S2 hd hs hnd

/-- Witness for C1: `src = [1, 2, 3]`, `dst = [11, 12]`, `pos` at `12` and the range `[2, 3)`
give `src = [1, 3]` and `dst = [11, 2, 12]`. -/
theorem splice_cross_lists_witness :
    ∃ h1, list.splice heapTwo 10 0 (some 12) (some 2) (some 3) = some h1 ∧
      WF h1 10 [11, 2, 12] ∧ WF h1 0 [1, 3] ∧
      ∀ m, m ∉ [10, 11, 12, 0, 1, 2, 3] → h1 m = heapTwo m :=
  splice_cross_lists heapTwo 10 0 [11] [12] [1] [2] [3] (by decide) (by decide) (by decide)

/-- C2 (same-list splice): `pos`, `first` and `last` are positions of one well-formed list and
`pos` is not an element of the range `R = [first, last)`.  Either `pos` is the element `b`
that stands before the range (the list is `A ++ b :: B ++ R ++ C`), or `pos` stands at or
after `last` (the list is `A ++ R ++ B ++ C` and `pos` is the position of `C`, `end()` when
`C` is empty).  After `L.splice(pos, L, first, last)` the list is again a well-formed
circular chain, holds the same elements, the range stands in its order right before `pos`
and the other elements keep their order; when `last == pos` (`B` empty) the heap is
unchanged. -/
theorem splice_same_list :
    (∀ (h : Heap) (s b : Nat) (A B R C : List Nat), WF h s (A ++ b :: B ++ R ++ C) →
      ∃ h1, list.splice h s s (some b) (some ((R ++ C).headD s)) (some (C.headD s)) = some h1 ∧
        WF h1 s (A ++ R ++ b :: B ++ C) ∧
        (A ++ R ++ b :: B ++ C).Perm (A ++ b :: B ++ R ++ C)) ∧
    (∀ (h : Heap) (s : Nat) (A R B C : List Nat), WF h s (A ++ R ++ B ++ C) →
      ∃ h1, list.splice h s s (some (C.headD s)) (some ((R ++ B ++ C).headD s))
          (some ((B ++ C).headD s)) = some h1 ∧
        WF h1 s (A ++ B ++ R ++ C) ∧
        (A ++ B ++ R ++ C).Perm (A ++ R ++ B ++ C) ∧ (B = [] → h1 = h)) := by
  constructor
  · intro h s b A B R C hw
    obtain ⟨h1, k1, k2, -⟩ := splice_same_before h s b A B R C hw
    refine ⟨h1, k1, k2, ?_⟩
    rw [List.perm_iff_count]
    intro a
    simp only [List.count_append, List.count_cons, List.count_nil]
    omega
  · intro h s A R B C hw
    obtain ⟨h1, k1, k2, k3, -⟩ := splice_same_after h s A R B C hw
    refine ⟨h1, k1, k2, ?_, k3⟩
    rw [List.perm_iff_count]
    intro a
    simp only [List.count_append, List.count_cons, List.count_nil]
    omega

theorem splice_same_list_witness :
    (∃ h1, list.splice heapFive 0 0 (some 1) (some 3) (some 5) = some h1 ∧
        WF h1 0 [3, 4, 1, 2, 5] ∧ [3, 4, 1, 2, 5].Perm [1, 2, 3, 4, 5]) ∧
    (∃ h1, list.splice heapFive 0 0 (some 0) (some 1) (some 3) = some h1 ∧
        WF h1 0 [3, 4, 5, 1, 2] ∧ [3, 4, 5, 1, 2].Perm [1, 2, 3, 4, 5] ∧
        (([3, 4, 5] : List Nat) = [] → h1 = heapFive)) :=
  ⟨splice_same_list.1 heapFive 0 1 [] [2] [3, 4] [5] (by decide),
   splice_same_list.2 heapFive 0 [] [1, 2] [3, 4, 5] [] (by decide)⟩

/-- C3 (what the code does): destroying the list `[1]` leaves the element `1` with
`prev == next == 1`, and destroying `[1, 2, 3]` leaves `1.prev == 3` and `3.next == 1`;
only the inner element `2` ends with both pointers null. -/
theorem dtor_leaves_links :
    WF heapA 0 [1] ∧
    (list.dtor 2 heapA 0).map (fun g => g 1) = some ⟨some 1, some 1⟩ ∧
    WF heapABC 0 [1, 2, 3] ∧
    (list.dtor 4 heapABC 0).map (fun g => (g 1, g 2, g 3)) =
      some (⟨some 3, none⟩, ⟨none, none⟩, ⟨none, some 1⟩) := by
  decide

/-- C6 (erase): in a well-formed list holding `A ++ x :: C`, `erase` of the iterator at `x`
leaves the list well formed with the contents `A ++ C` (the former contents with `x`
removed), `x` has both pointers null, the returned iterator designates the element that
followed `x`, or the sentinel when `x` was last, and no node outside the list is written. -/
theorem erase_spec (h : Heap) (s x : Nat) (A C : List Nat) (hw : WF h s (A ++ x :: C)) :
    ∃ h1, list.erase h (some x) = some (h1, some (C.headD s)) ∧
      WF h1 s (A ++ C) ∧ (A ++ x :: C).erase x = A ++ C ∧ Unlinked h1 x ∧
      ∀ m, m ∉ s :: (A ++ x :: C) → h1 m = h m := by
  obtain ⟨u1, u2⟩ := wf_unlink hw
  have hw1 : WF h s ((A ++ [x]) ++ C) := by simpa using hw
  have hl := wf_linked hw1
  simp only [List.getLastD_concat] at hl
  refine ⟨_, ?_, u1, ?_, unlink_unlinked h x, u2⟩
  · simp only [list.erase, hl.1]
  · have hxA : x ∉ A := by
      have := (wf_nodup hw)
      simp [List.nodup_append] at this
      tauto
    rw [List.erase_append_right _ hxA, List.erase_cons_head]

theorem erase_spec_witness :
    ∃ h1, list.erase heapABC (some 2) = some (h1, some 3) ∧
      WF h1 0 [1, 3] ∧ [1, 2, 3].erase 2 = [1, 3] ∧ Unlinked h1 2 ∧
      ∀ m, m ∉ [0, 1, 2, 3] → h1 m = heapABC m :=
  erase_spec heapABC 0 2 [1] [3] (by decide)

theorem ring_neighbours_agree {h : Heap} {r : List Nat} (hr : Ring h r) {n : Nat}
    (hn : n ∈ r) : NeighboursAgree h n := by
  obtain ⟨pa, na, -, -, hp, hx⟩ := ring_neighbours hr hn
  unfold NeighboursAgree
  rw [hx.1, hp.2]
  exact ⟨hx.2, hp.1⟩

/-- Move construction under the default tag, where `list(list<T>&&)` runs: from a well-formed
source with contents `l`, empty or not, the new list at `this` is well formed with the
contents `l`, read forwards by `next` and backwards by `prev`, and the source is empty: its
sentinel points to itself both ways. -/
theorem move_ctor_spec (h : Heap) (this old : Nat) (l : List Nat)
    (hw : WF h old l) (ht : this ∉ old :: l) :
    ∃ h1, list.move_construct list_tag.default_tag h this old = some h1 ∧ WF h1 this l ∧
      list.forward h1 this (l.length + 1) (list.begin h1 this) = some l ∧
      list.backward h1 l.length (list.end_ this) = some (l.reverse, list.begin h1 this) ∧
      WF h1 old [] ∧ list.empty h1 old = true ∧
      (h1 old).next = some old ∧ (h1 old).prev = some old := by
  have hw0 : WF (fun n => if n = this then ⟨none, none⟩ else h n) old l := by
    apply wf_frame hw
    intro m hm
    have : m ≠ this := by rintro rfl; exact ht hm
    simp [this]
  have hT : ∀ g : Heap,
      (∀ m, m ∉ old :: l → g m = (fun n => if n = this then ⟨none, none⟩ else h n) m) →
      ∀ m ∈ old :: l, list_base.unlink g this m = g m := by
    intro g hg m _
    have h1 := hg this ht
    simp only [if_true] at h1
    have hu : Unlinked g this := by
      unfold Unlinked; rw [h1]; exact ⟨rfl, rfl⟩
    rw [unlink_of_unlinked hu]
  obtain ⟨h1, k1, k2, k3⟩ := take_over_spec hw0 ht hT
  have hl : Linked h1 old old := wf_linked (A := []) (C := []) k3
  exact ⟨h1, k1, k2, (wf_forward k2), (wf_backward k2), k3, (wf_empty_iff k3).2 rfl, hl.1, hl.2⟩

theorem move_ctor_spec_witness :
    ∃ h1, list.move_construct list_tag.default_tag heapABC 20 0 = some h1 ∧
      WF h1 20 [1, 2, 3] ∧
      list.forward h1 20 4 (list.begin h1 20) = some [1, 2, 3] ∧
      list.backward h1 3 (list.end_ 20) = some ([3, 2, 1], list.begin h1 20) ∧
      WF h1 0 [] ∧ list.empty h1 0 = true ∧
      (h1 0).next = some 0 ∧ (h1 0).prev = some 0 :=
  move_ctor_spec heapABC 20 0 [1, 2, 3] (by decide) (by decide)

/-- Move assignment under the default tag, where `operator=(list<T>&&)` runs: for a
well-formed destination with any contents `d` and a distinct well-formed source with
contents `l`, after the assignment the destination holds `l`, read forwards and backwards,
and the source is empty; the assignment of a list to itself leaves the heap unchanged. -/
theorem move_assign_spec :
    (∀ (h : Heap) (this old : Nat) (d l : List Nat), WF h this d → WF h old l →
      ((this :: d) ++ (old :: l)).Nodup →
      ∃ h1, list.move_assignment list_tag.default_tag h this old = some h1 ∧ WF h1 this l ∧
        list.forward h1 this (l.length + 1) (list.begin h1 this) = some l ∧
        list.backward h1 l.length (list.end_ this) = some (l.reverse, list.begin h1 this) ∧
        WF h1 old [] ∧ list.empty h1 old = true) ∧
    (∀ (h : Heap) (this : Nat),
      list.move_assignment list_tag.default_tag h this this = some h) := by
  constructor
  · intro h this old d l hd hw hnd
    have hdis := List.disjoint_of_nodup_append hnd
    have ht : this ∉ old :: l := fun hm => hdis (by simp) hm
    have hto : this ≠ old := fun e => ht (by simp [e])
    have hT : ∀ g : Heap, (∀ m, m ∉ old :: l → g m = h m) →
        ∀ m ∈ old :: l, list_base.unlink g this m = g m := by
      intro g hg m hm
      have rg : Ring g (this :: d) :=
        ring_frame hd (fun x hx => hg x (fun hx' => hdis hx hx'))
      exact (ring_unlink rg).2 m (fun hm' => hdis hm' hm)
    obtain ⟨h1, k1, k2, k3⟩ := take_over_spec hw ht hT
    refine ⟨h1, ?_, k2, (wf_forward k2), (wf_backward k2), k3, (wf_empty_iff k3).2 rfl⟩
    simp only [list.move_assignment, list.move_assign, if_neg hto, k1]
  · intro h this
    simp [list.move_assignment, list.move_assign]

theorem move_assign_spec_witness :
    ∃ h1, list.move_assignment list_tag.default_tag heapTwo 10 0 = some h1 ∧
      WF h1 10 [1, 2, 3] ∧
      list.forward h1 10 4 (list.begin h1 10) = some [1, 2, 3] ∧
      list.backward h1 3 (list.end_ 10) = some ([3, 2, 1], list.begin h1 10) ∧
      WF h1 0 [] ∧ list.empty h1 0 = true :=
  move_assign_spec.1 heapTwo 10 0 [11, 12] [1, 2, 3] (by decide) (by decide) (by decide)

/-- C8 fails for a list under a tag other than `default_tag`: the constructor is declared as
`list(list<T>&&)`, which takes a default-tag list, so moving from the list `[1, 2, 3]` with
sentinel `0` runs the implicit copy constructor.  The new sentinel `20` has both pointers
null, so the new list is not well formed with any contents, and the source keeps
`[1, 2, 3]` and is not empty.  Under the default tag the same call hands the elements over
and empties the source. -/
theorem move_construct_other_tag_copies (id : Nat) :
    WF heapABC 0 [1, 2, 3] ∧ Unlinked heapABC 20 ∧
    (list.move_construct (list_tag.user_tag id) heapABC 20 0).map
      (fun g => (g 20, g 0)) = some (⟨none, none⟩, ⟨some 3, some 1⟩) ∧
    (∃ g, list.move_construct (list_tag.user_tag id) heapABC 20 0 = some g ∧
      (∀ l, ¬ WF g 20 l) ∧ WF g 0 [1, 2, 3] ∧ list.empty g 0 = false ∧
      list.forward g 20 4 (list.begin g 20) = none) ∧
    (list.move_construct list_tag.default_tag heapABC 20 0).map
      (fun (g : Heap) => decide (WF g 20 [1, 2, 3] ∧ WF g 0 [])) = some true := by
  have ev : list.move_construct (list_tag.user_tag id) heapABC 20 0 =
      some (list.copy_ctor heapABC 20 0) := rfl
  refine ⟨by decide, by decide, by rw [ev]; decide,
    ⟨list.copy_ctor heapABC 20 0, ev, ?_, by decide, by decide, by decide⟩, by decide⟩
  intro l hw
  have hl : (list.copy_ctor heapABC 20 0 20).next = some (l.headD 20) :=
    (wf_linked (A := []) (C := l) hw).1
  have h20 : (list.copy_ctor heapABC 20 0 20).next = none := by decide
  rw [h20] at hl
  exact Option.noConfusion hl

/-- C9 fails for lists under a tag other than `default_tag`: the operator is declared as
`operator=(list<T>&&)`, which takes a default-tag list, so `dst = std::move(src)` with the
destination `[11, 12]` (sentinel `10`) and the source `[1, 2, 3]` (sentinel `0`) runs the
implicit copy assignment.  The sentinel `10` gets the pointers of the sentinel `0`, the
source is not emptied, the elements `1` and `3` still point at the sentinel `0`, so the
destination is not well formed with any contents, and `11` and `12` still point at `10`.
Under the default tag the same assignment hands the elements over and empties the source.
Assigning a list to itself changes nothing under either tag. -/
theorem move_assignment_other_tag_copies (id : Nat) :
    WF heapTwo 10 [11, 12] ∧ WF heapTwo 0 [1, 2, 3] ∧
    (list.move_assignment (list_tag.user_tag id) heapTwo 10 0).map
      (fun g => (g 10, g 0, g 1, g 3, g 11, g 12)) =
      some (⟨some 3, some 1⟩, ⟨some 3, some 1⟩, ⟨some 0, some 2⟩, ⟨some 2, some 0⟩,
        ⟨some 10, some 12⟩, ⟨some 11, some 10⟩) ∧
    (∃ g, list.move_assignment (list_tag.user_tag id) heapTwo 10 0 = some g ∧
      (∀ l, ¬ WF g 10 l) ∧ WF g 0 [1, 2, 3] ∧ list.empty g 0 = false ∧
      ¬ NeighboursAgree g 10 ∧ ¬ NeighboursAgree g 11 ∧ ¬ Unlinked g 11) ∧
    (list.move_assignment list_tag.default_tag heapTwo 10 0).map
      (fun (g : Heap) => decide (WF g 10 [1, 2, 3] ∧ WF g 0 [])) = some true ∧
    (∀ h this, list.move_assignment (list_tag.user_tag id) h this this = some h) := by
  have ev : list.move_assignment (list_tag.user_tag id) heapTwo 10 0 =
      some (list.copy_assign heapTwo 10 0) := rfl
  refine ⟨by decide, by decide, by rw [ev]; decide,
    ⟨list.copy_assign heapTwo 10 0, ev, ?_, by decide, by decide, by decide, by decide,
      by decide⟩, by decide, ?_⟩
  · intro l hw
    have hl := ring_neighbours_agree hw (List.mem_cons_self 10 l)
    have h10 : ¬ NeighboursAgree (list.copy_assign heapTwo 10 0) 10 := by decide
    exact h10 hl
  · intro h this
    have e : list.copy_assign h this this = h := by
      funext n
      by_cases hn : n = this
      · subst hn
        simp [list.copy_assign, list_base.copy_assign, setPrev, setNext]
      · simp [list.copy_assign, list_base.copy_assign, setPrev, setNext, hn]
    show some (list.copy_assign h this this) = some h
    rw [e]

theorem insertBefore_headD (s e : Nat) (X Y : List Nat) (hp : Y.headD s ∉ X) :
    insertBefore (Y.headD s) e (X ++ Y) = X ++ e :: Y := by
  induction X with
  | nil =>
    cases Y with
    | nil => simp [insertBefore]
    | cons y Y => simp [insertBefore]
  | cons x X ih =>
    have hx : x ≠ Y.headD s := fun e' => hp (by rw [← e']; exact List.mem_cons_self _ _)
    have hX : Y.headD s ∉ X := fun hm => hp (List.mem_cons_of_mem _ hm)
    have := ih hX
    simp only [insertBefore] at this ⊢
    simp only [List.cons_append, List.takeWhile_cons, List.dropWhile_cons, hx, ne_eq,
      not_false_eq_true, decide_True, if_true]
    simp only [List.cons_append, this]

theorem split_at_pos {s pos : Nat} {l : List Nat} (hpos : pos ∈ l ++ [s]) (hs : s ∉ l)
    (hnd : l.Nodup) : ∃ A C, l = A ++ C ∧ C.headD s = pos ∧ pos ∉ A := by
  rcases List.mem_append.1 hpos with hm | hm
  · obtain ⟨A, C, rfl⟩ := List.append_of_mem hm
    refine ⟨A, pos :: C, rfl, rfl, ?_⟩
    intro hA
    have := List.disjoint_of_nodup_append hnd hA
    exact this (by simp)
  · have : pos = s := by simpa using hm
    subst this
    exact ⟨l, [], by simp, rfl, hs⟩

/-- `insert` of a node that is unlinked first: the value of the call. -/
theorem insert_eval {h : Heap} {pos e p : Nat} (hp : (h pos).prev = some p) (hpe : p ≠ e)
    (hr : (list_base.link (list_base.unlink h e) e p pos).prev = some e) :
    list.insert h (some pos) e = some (list_base.link (list_base.unlink h e) e p, some e) := by
  simp only [list.insert, hp]
  rw [← link_unlink h e p hpe, hr]

/-- `insert` of an element of the list that stands before the position. -/
theorem insert_before_pos {h : Heap} {s e : Nat} {A B C : List Nat}
    (hw : WF h s (A ++ e :: B ++ C)) :
    ∃ h1, list.insert h (some (C.headD s)) e = some (h1, some e) ∧
      WF h1 s (A ++ B ++ e :: C) := by
  rcases List.eq_nil_or_concat B with hB | ⟨B', p, hB0⟩
  · subst hB
    have hw1 : WF h s ((A ++ [e]) ++ C) := by simpa using hw
    have hl := wf_linked hw1
    simp only [List.getLastD_concat] at hl
    refine ⟨h, ?_, by simpa using hw⟩
    simp only [list.insert, hl.2, list_base.link, ↓reduceIte]
  · have hB : B = B' ++ [p] := by simpa using hB0
    subst hB
    have hw1 : WF h s ((A ++ e :: B' ++ [p]) ++ C) := by simpa using hw
    have hl := wf_linked hw1
    have e1 : (A ++ e :: B' ++ [p]).getLastD s = p := by
      have : A ++ e :: B' ++ [p] = (A ++ e :: B') ++ [p] := by simp
      rw [this, List.getLastD_concat]
    rw [e1] at hl
    have hnd := (wf_nodup hw)
    have hpe : p ≠ e := by
      rintro rfl
      simp [List.nodup_append] at hnd
    have hw2 : WF h s (A ++ e :: (B' ++ [p] ++ C)) := by simpa using hw
    obtain ⟨u1, -⟩ := wf_unlink hw2
    have u1' : WF (list_base.unlink h e) s ((A ++ B' ++ [p]) ++ C) := by simpa using u1
    have hx : e ∉ s :: ((A ++ B' ++ [p]) ++ C) := by
      simp [List.nodup_append] at hnd ⊢
      tauto
    obtain ⟨k1, -⟩ := wf_link u1' hx (unlink_unlinked h e)
    have e2 : (A ++ B' ++ [p]).getLastD s = p := by rw [List.getLastD_concat]
    rw [e2] at k1
    have k2 : WF (list_base.link (list_base.unlink h e) e p) s
        (((A ++ B' ++ [p]) ++ [e]) ++ C) := by simpa using k1
    have hl2 := wf_linked k2
    simp only [List.getLastD_concat] at hl2
    exact ⟨_, insert_eval hl.2 hpe hl2.2, by simpa using k1⟩

/-- `insert` of an element of the list that stands after the position `b`. -/
theorem insert_after_pos {h : Heap} {s e b : Nat} {A B C : List Nat}
    (hw : WF h s (A ++ b :: B ++ e :: C)) :
    ∃ h1, list.insert h (some b) e = some (h1, some e) ∧
      WF h1 s (A ++ e :: b :: B ++ C) := by
  have hw1 : WF h s (A ++ (b :: B ++ e :: C)) := by simpa using hw
  have hl := wf_linked hw1
  have e0 : (b :: B ++ e :: C).headD s = b := rfl
  rw [e0] at hl
  have hnd := (wf_nodup hw)
  have hce : A.getLastD s ≠ e := by
    intro e'
    have := List.getLastD_mem_cons A s
    rw [e'] at this
    simp [List.nodup_append] at hnd this
    tauto
  have hw2 : WF h s ((A ++ b :: B) ++ e :: C) := by simpa using hw
  obtain ⟨u1, -⟩ := wf_unlink hw2
  have u1' : WF (list_base.unlink h e) s (A ++ (b :: B ++ C)) := by simpa using u1
  have hx : e ∉ s :: (A ++ (b :: B ++ C)) := by
    simp [List.nodup_append] at hnd ⊢
    tauto
  obtain ⟨k1, -⟩ := wf_link u1' hx (unlink_unlinked h e)
  have k2 : WF (list_base.link (list_base.unlink h e) e (A.getLastD s)) s
      ((A ++ [e]) ++ (b :: B ++ C)) := by simpa using k1
  have hl2 := wf_linked k2
  simp only [List.getLastD_concat] at hl2
  have e3 : (b :: B ++ C).headD s = b := rfl
  rw [e3] at hl2
  exact ⟨_, insert_eval hl.2 hce hl2.2, by simpa using k1⟩

/-- `insert` of a member of another well-formed list: the element leaves that list and
enters this one at the position. -/
theorem insert_from_other {h : Heap} {sd ss x : Nat} {D1 D2 S1 S2 : List Nat}
    (hd : WF h sd (D1 ++ D2)) (hs : WF h ss (S1 ++ x :: S2))
    (hnd : ((sd :: (D1 ++ D2)) ++ (ss :: (S1 ++ x :: S2))).Nodup) :
    ∃ h1, list.insert h (some (D2.headD sd)) x = some (h1, some x) ∧
      WF h1 sd (D1 ++ x :: D2) ∧ WF h1 ss (S1 ++ S2) := by
  have hdis := List.disjoint_of_nodup_append hnd
  have hl := wf_linked hd
  have hpx : D1.getLastD sd ≠ x := by
    intro e
    have hm : D1.getLastD sd ∈ sd :: (D1 ++ D2) := by
      have := List.getLastD_mem_cons D1 sd
      simp at this ⊢; tauto
    rw [e] at hm
    exact hdis hm (by simp)
  obtain ⟨u1, u2⟩ := wf_unlink hs
  have hd1 : WF (list_base.unlink h x) sd (D1 ++ D2) :=
    wf_frame hd (fun m hm => u2 m (fun hm' => hdis hm hm'))
  have hx : x ∉ sd :: (D1 ++ D2) := fun hm => hdis hm (by simp)
  obtain ⟨k1, l2⟩ := wf_link hd1 hx (unlink_unlinked h x)
  have k2 : WF (list_base.link (list_base.unlink h x) x (D1.getLastD sd)) sd
      ((D1 ++ [x]) ++ D2) := by simpa using k1
  have hl2 := wf_linked k2
  simp only [List.getLastD_concat] at hl2
  have hxs : x ∉ ss :: (S1 ++ S2) := by
    have := wf_nodup hs
    simp [List.nodup_append] at this ⊢
    tauto
  refine ⟨_, insert_eval hl.2 hpx hl2.2, k1, ?_⟩
  apply wf_frame u1
  intro m hm
  apply l2 m
  · intro hm'
    refine hdis hm' ?_
    simp at hm ⊢; tauto
  · rintro rfl; exact hxs hm

/-- C7 as stated fails when `e` is the element at `pos`: on the list `[1, 2, 3]`,
`insert(pos = 2, e = 2)` leaves the list as it is and returns an iterator to `1`, the
predecessor, and `2.next` is `3`, not the node at `pos`.  It also fails for a node with
stale pointers: in `heapStale` the node `11` is neither unlinked nor on any well-formed
list, and `insert(end(), 11)` on the empty list `10` leaves `11.next = 12` and
`10.prev = 10` and returns an iterator to the sentinel. -/
theorem insert_at_itself_counterexample :
    WF heapABC 0 [1, 2, 3] ∧
    (list.insert heapABC (some 2) 2).map Prod.snd = some (some 1) ∧
    (list.insert heapABC (some 2) 2).map (fun r => (r.1 2).next) = some (some 3) ∧
    (¬ ∃ h1, list.insert heapABC (some 2) 2 = some (h1, some 2)) ∧
    WF heapStale 10 [] ∧ ¬ Unlinked heapStale 11 ∧
    (¬ ∃ s l, WF heapStale s l ∧ 11 ∈ s :: l) ∧
    (list.insert heapStale (some 10) 11).map
      (fun r => ((r.1 11).next, (r.1 10).prev, r.2)) = some (some 12, some 10, some 10) := by
  refine ⟨by decide, by decide, by decide, ?_, by decide, by decide, ?_, by decide⟩
  · rintro ⟨h1, hh⟩
    have h2 : (list.insert heapABC (some 2) 2).map Prod.snd = some (some 1) := by decide
    rw [hh] at h2
    simp at h2
  · rintro ⟨s, l, hw, hm⟩
    have h3 : ¬ NeighboursAgree heapStale 11 := by decide
    exact h3 (ring_neighbours_agree hw hm)

/-- C7 (amended: `e` is not the element at `pos`; it is unlinked, or an element of this
list, or an element of another well-formed list).  After `insert(pos, e)` the list holds
its former elements without `e`, in their order, with `e` right before `pos`; `e.next` is
the node at `pos`, whose `prev` is `e`; the returned iterator designates `e`; with
`pos == end()` the element is appended; and a well-formed list that `e` came from keeps
its other elements in their order. -/
theorem insert_spec (h : Heap) (s pos e : Nat) (l : List Nat) (hw : WF h s l)
    (hpos : pos ∈ l ++ [s]) (hne : e ≠ pos)
    (he : e ∈ l ∨ (e ∉ s :: l ∧ Unlinked h e) ∨
      ∃ s2 l2, WF h s2 l2 ∧ e ∈ l2 ∧ ((s :: l) ++ (s2 :: l2)).Nodup) :
    ∃ h1, list.insert h (some pos) e = some (h1, some e) ∧
      WF h1 s (insertBefore pos e (l.erase e)) ∧ Linked h1 e pos ∧
      (pos = s → insertBefore pos e (l.erase e) = l.erase e ++ [e]) ∧
      ∀ s2 l2, WF h s2 l2 → e ∈ l2 → ((s :: l) ++ (s2 :: l2)).Nodup →
        WF h1 s2 (l2.erase e) := by
  have hnd := (wf_nodup hw)
  have hsl : s ∉ l := (List.nodup_cons.1 hnd).1
  have hl : l.Nodup := (List.nodup_cons.1 hnd).2
  have main : ∃ h1, list.insert h (some pos) e = some (h1, some e) ∧
      WF h1 s (insertBefore pos e (l.erase e)) ∧ Linked h1 e pos ∧
      (pos = s → insertBefore pos e (l.erase e) = l.erase e ++ [e]) := by
    -- it is enough to find the split of the result around `e`
    suffices hX : ∃ h1 X Y, list.insert h (some pos) e = some (h1, some e) ∧
        l.erase e = X ++ Y ∧ Y.headD s = pos ∧ pos ∉ X ∧ WF h1 s (X ++ e :: Y) by
      obtain ⟨h1, X, Y, k1, k2, k3, k4, k5⟩ := hX
      have e1 : insertBefore pos e (l.erase e) = X ++ e :: Y := by
        rw [k2, ← k3]
        exact insertBefore_headD s e X Y (by rw [k3]; exact k4)
      have k6 : WF h1 s ((X ++ [e]) ++ Y) := by simpa using k5
      have hlk := wf_linked k6
      simp only [List.getLastD_concat] at hlk
      rw [k3] at hlk
      refine ⟨h1, k1, by rw [e1]; exact k5, hlk, ?_⟩
      intro hps
      rw [e1, k2]
      have hY : Y = [] := by
        cases Y with
        | nil => rfl
        | cons y Y =>
          exfalso
          have hy : y = s := by rw [← hps, ← k3]; rfl
          have : y ∈ l.erase e := by rw [k2]; simp
          exact hsl (hy ▸ List.mem_of_mem_erase this)
      rw [hY]; simp
    rcases he with he | ⟨he, hu⟩ | ⟨s2, l2, hw2, he2, hnd2⟩
    · obtain ⟨A0, C0, rfl⟩ := List.append_of_mem he
      have heA : e ∉ A0 := by
        intro hm
        exact List.disjoint_of_nodup_append hl hm (by simp)
      have hers : (A0 ++ e :: C0).erase e = A0 ++ C0 := by
        rw [List.erase_append_right _ heA, List.erase_cons_head]
      have hpos2 : pos ∈ A0 ∨ pos ∈ C0 ++ [s] := by
        simp at hpos ⊢
        rcases hpos with hp | hp | hp | hp
        · exact Or.inl hp
        · exact absurd hp.symm hne
        · exact Or.inr (Or.inl hp)
        · exact Or.inr (Or.inr hp)
      rcases hpos2 with hp | hp
      · obtain ⟨A1, B, rfl⟩ := List.append_of_mem hp
        have hw2 : WF h s (A1 ++ pos :: B ++ e :: C0) := by simpa using hw
        obtain ⟨h1, k1, k2⟩ := insert_after_pos hw2
        have hpA : pos ∉ A1 := by
          intro hm
          have : (A1 ++ pos :: B).Nodup := List.Nodup.of_append_left hl
          exact List.disjoint_of_nodup_append this hm (by simp)
        refine ⟨h1, A1, pos :: B ++ C0, k1, by rw [hers]; simp, rfl, hpA, by simpa using k2⟩
      · have hsC : s ∉ C0 := fun hm => hsl (by simp [hm])
        have hC : C0.Nodup := by
          have := List.Nodup.of_append_right hl
          exact (List.nodup_cons.1 this).2
        obtain ⟨B, C, rfl, hC1, hC2⟩ := split_at_pos hp hsC hC
        have hw2 : WF h s (A0 ++ e :: B ++ C) := by simpa using hw
        obtain ⟨h1, k1, k2⟩ := insert_before_pos hw2
        rw [hC1] at k1
        have hpA : pos ∉ A0 ++ B := by
          intro hm
          rcases List.mem_append.1 hm with hm | hm
          · rcases List.mem_append.1 hp with hp' | hp'
            · exact List.disjoint_of_nodup_append hl hm (by simp [hp'])
            · have : pos = s := by simpa using hp'
              exact hsl (by rw [← this]; simp [hm])
          · exact hC2 hm
        exact ⟨h1, A0 ++ B, C, k1, by rw [hers]; simp, hC1, hpA, by simpa using k2⟩
    · have hel : e ∉ l := fun hm => he (by simp [hm])
      obtain ⟨A, C, rfl, hC1, hC2⟩ := split_at_pos hpos hsl hl
      obtain ⟨h1, k1, -, k3⟩ := wf_insert hw he hu
      rw [hC1] at k1
      exact ⟨h1, A, C, k1, List.erase_of_not_mem hel, hC1, hC2, k3⟩
    · obtain ⟨A2, C2, rfl⟩ := List.append_of_mem he2
      have hel : e ∉ l := fun hm =>
        List.disjoint_of_nodup_append hnd2 (List.mem_cons_of_mem _ hm) (by simp)
      obtain ⟨A, C, rfl, hC1, hC2⟩ := split_at_pos hpos hsl hl
      obtain ⟨h1, k1, k3, -⟩ := insert_from_other hw hw2 hnd2
      rw [hC1] at k1
      exact ⟨h1, A, C, k1, List.erase_of_not_mem hel, hC1, hC2, k3⟩
  obtain ⟨h1, m1, m2, m3, m4⟩ := main
  refine ⟨h1, m1, m2, m3, m4, ?_⟩
  intro s2 l2 hw2 he2 hnd2
  obtain ⟨A2, C2, rfl⟩ := List.append_of_mem he2
  obtain ⟨A, C, rfl, hC1, -⟩ := split_at_pos hpos hsl hl
  obtain ⟨g, j1, -, j3⟩ := insert_from_other hw hw2 hnd2
  rw [hC1, m1] at j1
  have hg : h1 = g := by
    have := Option.some.inj j1
    exact congrArg Prod.fst this
  have heA : e ∉ A2 := by
    have := wf_nodup hw2
    simp [List.nodup_append] at this
    tauto
  rw [List.erase_append_right _ heA, List.erase_cons_head, hg]
  exact j3

theorem insert_spec_witness :
    ∃ h1, list.insert heapTwo (some 12) 2 = some (h1, some 2) ∧
      WF h1 10 [11, 2, 12] ∧ Linked h1 2 12 ∧
      (12 = 10 → ([11, 2, 12] : List Nat) = [11, 12] ++ [2]) ∧
      ∀ s2 l2, WF heapTwo s2 l2 → 2 ∈ l2 → ((10 :: [11, 12]) ++ (s2 :: l2)).Nodup →
        WF h1 s2 (l2.erase 2) :=
  insert_spec heapTwo 10 12 2 [11, 12] (by decide) (by decide) (by decide)
    (Or.inr (Or.inr ⟨0, [1, 2, 3], by decide, by decide, by decide⟩))

theorem ctor_unlinked {h : Heap} {s : Nat} {es : List Nat} (hs : s ∉ es)
    (hu : ∀ e ∈ es, Unlinked h e) : ∀ e ∈ es, Unlinked (list.ctor h s) e := by
  intro e he
  have : e ≠ s := by rintro rfl; exact hs he
  unfold Unlinked
  rw [(ctor_wf h s).2 e this]
  exact hu e he

/-- C4 (push order): starting from a freshly constructed list with sentinel `s`, for distinct
unlinked elements `es`, (a) `push_back` of `es` in order succeeds, forward iteration yields
`es`, `front()` is the first and `back()` the last of `es`; (b) `push_front` of `es` in
order gives forward iteration `es.reverse`, `front()` the last and `back()` the first of
`es`. -/
theorem push_order (h : Heap) (s : Nat) (es : List Nat) (hnd : (s :: es).Nodup)
    (hu : ∀ e ∈ es, Unlinked h e) :
    (∃ h1, list.push_back_all s es (list.ctor h s) = some h1 ∧
      list.forward h1 s (es.length + 1) (list.begin h1 s) = some es ∧
      list.front h1 s = some (es.headD s) ∧ list.back h1 s = some (es.getLastD s)) ∧
    (list.forward (list.push_front_all s es (list.ctor h s)) s (es.length + 1)
        (list.begin (list.push_front_all s es (list.ctor h s)) s) = some es.reverse ∧
      list.front (list.push_front_all s es (list.ctor h s)) s = some (es.getLastD s) ∧
      list.back (list.push_front_all s es (list.ctor h s)) s = some (es.headD s)) := by
  have hs : s ∉ es := (List.nodup_cons.1 hnd).1
  have hc := (ctor_wf h s).1
  have hu1 := ctor_unlinked hs hu
  have hnd1 : ((s :: []) ++ es).Nodup := by simpa using hnd
  constructor
  · obtain ⟨h1, k1, k2⟩ := push_back_all_spec s es (list.ctor h s) [] hc hnd1 hu1
    have k3 : WF h1 s es := by simpa using k2
    exact ⟨h1, k1, (wf_forward k3), (wf_front_back k3).1, (wf_front_back k3).2⟩
  · have k2 := push_front_all_spec s es (list.ctor h s) [] hc hnd1 hu1
    have k3 : WF (list.push_front_all s es (list.ctor h s)) s es.reverse := by simpa using k2
    have k4 := (wf_forward k3)
    have k5 := (wf_front_back k3)
    rw [List.length_reverse] at k4
    refine ⟨k4, ?_, ?_⟩
    · rw [k5.1]; cases es using List.reverseRecOn <;> simp
    · rw [k5.2]; cases es <;> simp

theorem push_order_witness :
    (∃ h1, list.push_back_all 0 [1, 2, 3] (list.ctor heap0 0) = some h1 ∧
      list.forward h1 0 4 (list.begin h1 0) = some [1, 2, 3] ∧
      list.front h1 0 = some 1 ∧ list.back h1 0 = some 3) ∧
    (list.forward (list.push_front_all 0 [1, 2, 3] (list.ctor heap0 0)) 0 4
        (list.begin (list.push_front_all 0 [1, 2, 3] (list.ctor heap0 0)) 0) = some [3, 2, 1] ∧
      list.front (list.push_front_all 0 [1, 2, 3] (list.ctor heap0 0)) 0 = some 3 ∧
      list.back (list.push_front_all 0 [1, 2, 3] (list.ctor heap0 0)) 0 = some 1) :=
  push_order heap0 0 [1, 2, 3] (by decide) (by decide)

/-- C5 (backward iteration is the reverse of forward iteration): after `push_back` of the
distinct unlinked elements `es` into a fresh list, forward iteration yields `es`, and
`es.length` steps of `operator--` from `end()` visit `es.reverse` and stop at an iterator
that designates the first element and compares equal to `begin()`. -/
theorem backward_is_reverse (h : Heap) (s : Nat) (es : List Nat) (hnd : (s :: es).Nodup)
    (hu : ∀ e ∈ es, Unlinked h e) :
    ∃ h1 it, list.push_back_all s es (list.ctor h s) = some h1 ∧
      list.forward h1 s (es.length + 1) (list.begin h1 s) = some es ∧
      list.backward h1 es.length (list.end_ s) = some (es.reverse, it) ∧
      it = some (es.headD s) ∧ it = list.begin h1 s ∧
      list_iterator.op_eq h1 it (list.begin h1 s) = some true := by
  have hs : s ∉ es := (List.nodup_cons.1 hnd).1
  have hc := (ctor_wf h s).1
  have hu1 := ctor_unlinked hs hu
  have hnd1 : ((s :: []) ++ es).Nodup := by simpa using hnd
  obtain ⟨h1, k1, k2⟩ := push_back_all_spec s es (list.ctor h s) [] hc hnd1 hu1
  have k3 : WF h1 s es := by simpa using k2
  have hb : list.begin h1 s = some (es.headD s) := (wf_front_back k3).1
  refine ⟨h1, list.begin h1 s, k1, (wf_forward k3), (wf_backward k3), hb, rfl, ?_⟩
  rw [hb]
  simp [list_iterator.op_eq, list_base.op_eq]

theorem backward_is_reverse_witness :
    ∃ h1 it, list.push_back_all 0 [1, 2, 3] (list.ctor heap0 0) = some h1 ∧
      list.forward h1 0 4 (list.begin h1 0) = some [1, 2, 3] ∧
      list.backward h1 3 (list.end_ 0) = some ([3, 2, 1], it) ∧
      it = some 1 ∧ it = list.begin h1 0 ∧
      list_iterator.op_eq h1 it (list.begin h1 0) = some true :=
  backward_is_reverse heap0 0 [1, 2, 3] (by decide) (by decide)

/-- C10 (independent tags): `tagOf` tells which `list_element<Tag>` a link node is.  The
element `x` carries the node `x1` under tag `t1`, a member of the list `s1`, and the node
`x2` under the different tag `t2`, a member of the list `s2`.  Erasing `x1` from the first
list leaves every node of tag `t2` unchanged, so the second list keeps its contents with
`x2`, while `x1` becomes unlinked. -/
theorem erase_other_tag {Tag : Type} (tagOf : Nat → Tag) (t1 t2 : Tag) (ht : t1 ≠ t2)
    (h : Heap) (s1 s2 x1 x2 : Nat) (A C l2 : List Nat)
    (hw1 : WF h s1 (A ++ x1 :: C)) (hw2 : WF h s2 l2) (hx2 : x2 ∈ l2)
    (h1t : ∀ m ∈ s1 :: (A ++ x1 :: C), tagOf m = t1)
    (h2t : ∀ m ∈ s2 :: l2, tagOf m = t2) :
    ∃ h1 it, list.erase h (some x1) = some (h1, it) ∧
      (∀ m, tagOf m = t2 → h1 m = h m) ∧
      WF h1 s2 l2 ∧ x2 ∈ l2 ∧ h1 x2 = h x2 ∧
      Unlinked h1 x1 ∧ WF h1 s1 (A ++ C) := by
  obtain ⟨u1, u2⟩ := wf_unlink hw1
  have hfr : ∀ m, tagOf m = t2 → list_base.unlink h x1 m = h m := by
    intro m hm
    apply u2
    intro hm'
    exact ht ((h1t m hm').symm.trans hm)
  refine ⟨_, _, rfl, hfr, ?_, hx2, ?_, unlink_unlinked h x1, u1⟩
  · exact wf_frame hw2 (fun m hm => hfr m (h2t m hm))
  · exact hfr x2 (h2t x2 (by simp [hx2]))

theorem erase_other_tag_witness :
    ∃ h1 it, list.erase heapTwo (some 2) = some (h1, it) ∧
      (∀ m, decide (10 ≤ m) = true → h1 m = heapTwo m) ∧
      WF h1 10 [11, 12] ∧ 12 ∈ [11, 12] ∧ h1 12 = heapTwo 12 ∧
      Unlinked h1 2 ∧ WF h1 0 [1, 3] :=
  erase_other_tag (fun m => decide (10 ≤ m)) false true (by decide) heapTwo 0 10 2 12
    [1] [3] [11, 12] (by decide) (by decide) (by decide) (by decide) (by decide)

theorem dtor_loop_step (s fuel c : Nat) (g : Heap) (hcs : c ≠ s) :
    list.dtor_loop s (fuel + 1) g (some c) =
      list.dtor_loop s fuel (setNext (setPrev g c none) c none) (g c).next := by
  conv_lhs => unfold list.dtor_loop
  simp only [Option.some.injEq, hcs, if_false]

/-- The loop of `~list` started at a position resets every element from that position on
and stops at the sentinel. -/
theorem dtor_loop_spec {h : Heap} {s : Nat} (C : List Nat) :
    ∀ (A : List Nat) (g : Heap), WF h s (A ++ C) → (∀ m ∈ C, (g m).next = (h m).next) →
      list.dtor_loop s (C.length + 1) g (some (C.headD s)) =
        some (fun m => if m ∈ C then ⟨none, none⟩ else g m) := by
  induction C with
  | nil =>
    intro A g _ _
    simp [list.dtor_loop]
  | cons c C ih =>
    intro A g hw hg
    have hnd := (wf_nodup hw)
    have hcs : c ≠ s := by
      rintro rfl
      simp [List.nodup_append] at hnd
    have hw2 : WF h s ((A ++ [c]) ++ C) := by simpa using hw
    have hl := wf_linked hw2
    simp only [List.getLastD_concat] at hl
    have hcC : c ∉ C := by
      simp [List.nodup_append] at hnd
      tauto
    have e0 : (c :: C).headD s = c := rfl
    have hgc : (g c).next = some (C.headD s) := by rw [hg c (by simp), hl.1]
    have hg2 : ∀ m ∈ C, (setNext (setPrev g c none) c none m).next = (h m).next := by
      intro m hm
      have : m ≠ c := by rintro rfl; exact hcC hm
      simp [this, hg m (by simp [hm])]
    have := ih (A ++ [c]) (setNext (setPrev g c none) c none) hw2 hg2
    rw [e0, List.length_cons, dtor_loop_step _ _ _ _ hcs, hgc, this]
    congr 1
    funext m
    by_cases hm : m = c
    · subst hm; simp [hcC, node_eq_iff]
    · by_cases hmC : m ∈ C
      · simp [hmC]
      · simp [hm, hmC, node_eq_iff]

/-- What `~list` does to a non-empty well-formed list: the walk resets every element, and
the destructor of the sentinel, still pointing at the first and the last element, links
the last element to the first one again. -/
theorem dtor_relinks_ends {h : Heap} {s a : Nat} {l : List Nat} (hw : WF h s (a :: l)) :
    ∃ h1, list.dtor (l.length + 2) h s = some h1 ∧
      (h1 a).prev = some (l.getLastD a) ∧ (h1 (l.getLastD a)).next = some a := by
  have hnd := (wf_nodup hw)
  have hw0 : WF h s ([] ++ (a :: l)) := hw
  have hl : Linked h s a := wf_linked hw0
  have hw1 : WF h s ((a :: l) ++ []) := by simpa using hw
  have hl1 : Linked h ((a :: l).getLastD s) s := wf_linked hw1
  have e1 : (a :: l).getLastD s = l.getLastD a := by
    cases l <;> simp [List.getLastD]
  rw [e1] at hl1
  have hloop := dtor_loop_spec (a :: l) [] h hw0 (fun _ _ => rfl)
  have e0 : (a :: l).headD s = a := rfl
  rw [e0] at hloop
  have hsa : s ∉ a :: l := (List.nodup_cons.1 hnd).1
  have has : a ≠ s := by rintro rfl; exact hsa (by simp)
  have hlast : l.getLastD a ∈ a :: l := List.getLastD_mem_cons l a
  have hls : l.getLastD a ≠ s := by
    intro e; rw [e] at hlast; exact hsa hlast
  refine ⟨list_base.dtor (fun m => if m ∈ a :: l then ⟨none, none⟩ else h m) s, ?_, ?_, ?_⟩
  · simp only [list.dtor, hl.1]
    rw [show l.length + 2 = (a :: l).length + 1 from rfl, hloop]
  · simp only [list_base.dtor]
    rw [unlink_prev]
    simp only [if_neg hsa, hl.1, hl1.2, if_neg has, if_true]
  · simp only [list_base.dtor]
    rw [unlink_next]
    simp only [if_neg hsa, hl.1, hl1.2, if_neg hls, if_true]

/-- C11 as stated fails when `self` stands directly after `target`: on the list `[1, 2, 3]`,
`2.link(1)` unlinks `2` first, so `1.next` is `3` when it is read; after the call `2.next`
is `3`, while the value `1.next` had before the call is `2`. -/
theorem link_after_target_counterexample :
    WF heapABC 0 [1, 2, 3] ∧ (heapABC 1).next = some 2 ∧
    (list_base.link heapABC 2 1 2).next = some 3 ∧
    (list_base.link heapABC 2 1 2).next ≠ (heapABC 1).next := by
  decide

/-- C11 (amended): for every node `self` and every target `cur` different from `self`, after
`self.link(cur)`: `self.prev == cur`, `cur.next == self`, `self.next == n0` and, when `n0` is
not null, `n0.prev == self`.  Here `n0` is the value `cur.next` had before the call when
`self` was not linked to `cur` (`self.prev` was not `cur` and `cur.next` was not `self`),
and it is the old `self.next` when `self.prev` was `cur` (and `self.next` was not `self`). -/
theorem link_postcondition (h : Heap) (self cur : Nat) (hne : cur ≠ self) :
    ((h self).prev ≠ some cur → (h cur).next ≠ some self →
      (list_base.link h self cur self).prev = some cur ∧
      (list_base.link h self cur self).next = (h cur).next ∧
      (list_base.link h self cur cur).next = some self ∧
      ∀ n, (h cur).next = some n → (list_base.link h self cur n).prev = some self) ∧
    ((h self).prev = some cur → (h self).next ≠ some self →
      (list_base.link h self cur self).prev = some cur ∧
      (list_base.link h self cur self).next = (h self).next ∧
      (list_base.link h self cur cur).next = some self ∧
      ∀ n, (h self).next = some n → (list_base.link h self cur n).prev = some self) := by
  have hn : ∀ m, (list_base.link h self cur m).next = _ := fun m => link_next h self cur m hne
  have hp : ∀ m, (list_base.link h self cur m).prev = _ := fun m => link_prev h self cur m hne
  constructor
  · intro h1 h2
    have hc : (list_base.unlink h self cur).next = (h cur).next := by
      rw [unlink_next]; simp [hne, h1]
    refine ⟨?_, ?_, ?_, ?_⟩
    · rw [hp, hc]; simp [h2]
    · rw [hn, hc]; simp [Ne.symm hne]
    · rw [hn]; simp
    · intro n hn0; rw [hp, hc, hn0]; simp
  · intro h1 h2
    have hc : (list_base.unlink h self cur).next = (h self).next := by
      rw [unlink_next]; simp [hne, h1]
    refine ⟨?_, ?_, ?_, ?_⟩
    · rw [hp, hc]; simp [h2]
    · rw [hn, hc]; simp [Ne.symm hne]
    · rw [hn]; simp
    · intro n hn0; rw [hp, hc, hn0]; simp

theorem link_postcondition_witness :
    ((heapABC 3).prev ≠ some 1 → (heapABC 1).next ≠ some 3 →
      (list_base.link heapABC 3 1 3).prev = some 1 ∧
      (list_base.link heapABC 3 1 3).next = (heapABC 1).next ∧
      (list_base.link heapABC 3 1 1).next = some 3 ∧
      ∀ n, (heapABC 1).next = some n → (list_base.link heapABC 3 1 n).prev = some 3) ∧
    ((heapABC 3).prev = some 1 → (heapABC 3).next ≠ some 3 →
      (list_base.link heapABC 3 1 3).prev = some 1 ∧
      (list_base.link heapABC 3 1 3).next = (heapABC 3).next ∧
      (list_base.link heapABC 3 1 1).next = some 3 ∧
      ∀ n, (heapABC 3).next = some n → (list_base.link heapABC 3 1 n).prev = some 3) :=
  link_postcondition heapABC 3 1 (by decide)

/-- C12 as stated fails for a node that is its own neighbour: the sentinel `0` of an empty
list has `prev == next == 0`; after `unlink()` its `next` is null, not the old `next`. -/
theorem unlink_self_loop_counterexample :
    WF heapEmpties 0 [] ∧ (heapEmpties 0).prev = some 0 ∧ (heapEmpties 0).next = some 0 ∧
    (list_base.unlink heapEmpties 0 0).next = none ∧
    (list_base.unlink heapEmpties 0 0).next ≠ (heapEmpties 0).next := by
  decide

/-- C12 (amended): for every heap and every node `n`, linked or not, two calls of
`n.unlink()` give the same heap as one call; after one call `n.prev` and `n.next` are null;
and the former neighbours of `n` that are nodes other than `n` reference each other: the
old `prev`'s `next` is the old `next`, and the old `next`'s `prev` is the old `prev`. -/
theorem unlink_idempotent (h : Heap) (n : Nat) :
    list_base.unlink (list_base.unlink h n) n = list_base.unlink h n ∧
    Unlinked (list_base.unlink h n) n ∧
    (∀ p, (h n).prev = some p → p ≠ n → (list_base.unlink h n p).next = (h n).next) ∧
    (∀ q, (h n).next = some q → q ≠ n → (list_base.unlink h n q).prev = (h n).prev) := by
  refine ⟨unlink_of_unlinked (unlink_unlinked h n), unlink_unlinked h n, ?_, ?_⟩
  · intro p hp hpn
    rw [unlink_next]; simp [hpn, hp]
  · intro q hq hqn
    rw [unlink_prev]; simp [hqn, hq]

theorem unlink_idempotent_witness :
    list_base.unlink (list_base.unlink heapABC 2) 2 = list_base.unlink heapABC 2 ∧
    Unlinked (list_base.unlink heapABC 2) 2 ∧
    (∀ p, (heapABC 2).prev = some p → p ≠ 2 →
      (list_base.unlink heapABC 2 p).next = (heapABC 2).next) ∧
    (∀ q, (heapABC 2).next = some q → q ≠ 2 →
      (list_base.unlink heapABC 2 q).prev = (heapABC 2).prev) :=
  unlink_idempotent heapABC 2

/-- C13 as stated fails for a self-looped node: moving the sentinel `0` of an empty list
into the fresh node `5` leaves `5.prev == 5` (not the old `prev`, which is `0`) and
`0.next` null (not `5`). -/
theorem move_ctor_self_loop_counterexample :
    (heapEmpties 0).prev = some 0 ∧ (heapEmpties 0).next = some 0 ∧
    Unlinked heapEmpties 5 ∧
    (list_base.move_ctor heapEmpties 5 0 5).prev = some 5 ∧
    (list_base.move_ctor heapEmpties 5 0 5).prev ≠ (heapEmpties 0).prev ∧
    (list_base.move_ctor heapEmpties 5 0 0).next = none := by
  decide

/-- C13 (amended): for every node `old` with `prev` `p` and `next` `q`, each possibly null
but neither being `old` itself, and a freshly constructed node `this` that no neighbour is,
after the move construction `this.prev == p`, `this.next == q`, `p.next == this` when `p`
is not null, `q.prev == this` when `q` is not null, and `old.prev` and `old.next` are null. -/
theorem move_ctor_node (h : Heap) (this old : Nat) (p q : Ptr)
    (hto : this ≠ old) (hp : (h old).prev = p) (hq : (h old).next = q)
    (hpo : p ≠ some old) (hqo : q ≠ some old) (hpt : p ≠ some this) (hqt : q ≠ some this) :
    (list_base.move_ctor h this old this).prev = p ∧
    (list_base.move_ctor h this old this).next = q ∧
    (∀ a, p = some a → (list_base.move_ctor h this old a).next = some this) ∧
    (∀ b, q = some b → (list_base.move_ctor h this old b).prev = some this) ∧
    Unlinked (list_base.move_ctor h this old) old := by
  unfold list_base.move_ctor Unlinked
  subst hp hq
  cases hp : (h old).prev with
  | none =>
    cases hq : (h old).next with
    | none => simp [hto, Ne.symm hto, hp, hq]
    | some b =>
      have hbo : b ≠ old := by rintro rfl; exact hqo hq
      have hbt : b ≠ this := by rintro rfl; exact hqt hq
      simp [hto, Ne.symm hto, hp, hq, hbo, hbt, Ne.symm hbt]
  | some a =>
    have hao : a ≠ old := by rintro rfl; exact hpo hp
    have hat : a ≠ this := by rintro rfl; exact hpt hp
    cases hq : (h old).next with
    | none => simp [hto, Ne.symm hto, hp, hq, hao, hat, Ne.symm hao, Ne.symm hat]
    | some b =>
      have hbo : b ≠ old := by rintro rfl; exact hqo hq
      have hbt : b ≠ this := by rintro rfl; exact hqt hq
      simp [hto, Ne.symm hto, hp, hq, hao, hat, hbo, hbt, Ne.symm hao, Ne.symm hat,
        Ne.symm hbt, Ne.symm hbo]

theorem move_ctor_node_witness :
    (list_base.move_ctor heapABC 5 2 5).prev = some 1 ∧
    (list_base.move_ctor heapABC 5 2 5).next = some 3 ∧
    (∀ a, some 1 = some a → (list_base.move_ctor heapABC 5 2 a).next = some 5) ∧
    (∀ b, some 3 = some b → (list_base.move_ctor heapABC 5 2 b).prev = some 5) ∧
    Unlinked (list_base.move_ctor heapABC 5 2) 2 :=
  move_ctor_node heapABC 5 2 (some 1) (some 3) (by decide) (by decide) (by decide)
    (by decide) (by decide) (by decide) (by decide)

/-- Popping at either end of a well-formed non-empty list. -/
theorem pop_wf (h : Heap) (s x : Nat) (l : List Nat) :
    (WF h s (l ++ [x]) →
      ∃ h1, list.pop_back h s = some h1 ∧ WF h1 s l ∧ Unlinked h1 x ∧
        (l = [] → list.empty h1 s = true)) ∧
    (WF h s (x :: l) →
      ∃ h1, list.pop_front h s = some h1 ∧ WF h1 s l ∧ Unlinked h1 x ∧
        (l = [] → list.empty h1 s = true)) := by
  constructor
  · intro hw
    have hw0 : WF h s ((l ++ [x]) ++ []) := by simpa using hw
    have hl := wf_linked hw0
    simp only [List.getLastD_concat] at hl
    have hp : (h s).prev = some x := hl.2
    have hw1 : WF h s (l ++ x :: []) := hw
    obtain ⟨u1, -⟩ := wf_unlink hw1
    have u2 : WF (list_base.unlink h x) s l := by simpa using u1
    refine ⟨_, by simp only [list.pop_back, hp], u2, unlink_unlinked h x, ?_⟩
    intro hl0
    exact (wf_empty_iff u2).2 hl0
  · intro hw
    have hw0 : WF h s ([] ++ (x :: l)) := hw
    have hl : Linked h s x := wf_linked hw0
    obtain ⟨u1, -⟩ := wf_unlink hw0
    have u2 : WF (list_base.unlink h x) s l := u1
    refine ⟨_, by simp only [list.pop_front, hl.1], u2, unlink_unlinked h x, ?_⟩
    intro hl0
    exact (wf_empty_iff u2).2 hl0

/-- C14 (pop_back / pop_front): for a well-formed non-empty list, `pop_back()` on the
contents `l ++ [x]` leaves the contents `l` with `x` unlinked, and `pop_front()` on the
contents `x :: l` leaves the contents `l` with `x` unlinked; the list stays well formed,
and popping the only element makes `empty()` true. -/
theorem pop_spec (h : Heap) (s x : Nat) (l : List Nat) :
    (WF h s (l ++ [x]) →
      ∃ h1, list.pop_back h s = some h1 ∧ WF h1 s l ∧ Unlinked h1 x ∧
        (l = [] → list.empty h1 s = true)) ∧
    (WF h s (x :: l) →
      ∃ h1, list.pop_front h s = some h1 ∧ WF h1 s l ∧ Unlinked h1 x ∧
        (l = [] → list.empty h1 s = true)) :=
  pop_wf h s x l

theorem pop_spec_witness :
    (∃ h1, list.pop_back heapABC 0 = some h1 ∧ WF h1 0 [1, 2] ∧ Unlinked h1 3 ∧
        (([1, 2] : List Nat) = [] → list.empty h1 0 = true)) ∧
    (∃ h1, list.pop_front heapA 0 = some h1 ∧ WF h1 0 [] ∧ Unlinked h1 1 ∧
        (([] : List Nat) = [] → list.empty h1 0 = true)) :=
  ⟨(pop_spec heapABC 0 3 [1, 2]).1 (by decide), (pop_spec heapA 0 1 []).2 (by decide)⟩

/-- `push_back(e)` is `insert(end(), e)` without the returned iterator. -/
theorem push_back_eq_insert (h : Heap) (s e : Nat) :
    list.push_back h s e = (list.insert h (list.end_ s) e).map Prod.fst := by
  unfold list.push_back list.insert list.end_
  cases hp : (h s).prev <;> simp [hp]

/-- C15 (re-linking moves the element): for a well-formed list holding `A ++ e :: C`,
`push_back(e)` yields `A ++ C ++ [e]` and `push_front(e)` yields `e :: (A ++ C)`: the
contents with `e` removed, followed or preceded by `e`; the list stays well formed and no
element is lost or duplicated. -/
theorem relink_moves (h : Heap) (s e : Nat) (A C : List Nat) (hw : WF h s (A ++ e :: C)) :
    (∃ h1, list.push_back h s e = some h1 ∧ WF h1 s (A ++ C ++ [e])) ∧
    WF (list.push_front h s e) s (e :: (A ++ C)) ∧
    (A ++ e :: C).erase e = A ++ C ∧
    (A ++ C ++ [e]).Perm (A ++ e :: C) ∧ (e :: (A ++ C)).Perm (A ++ e :: C) := by
  have hnd := wf_nodup hw
  refine ⟨?_, ?_, ?_, ?_, ?_⟩
  · have hw1 : WF h s (A ++ e :: C ++ []) := by simpa using hw
    obtain ⟨h1, k1, k2⟩ := insert_before_pos hw1
    refine ⟨h1, ?_, by simpa using k2⟩
    rw [push_back_eq_insert]
    have : list.end_ s = some (([] : List Nat).headD s) := rfl
    rw [this, k1]; rfl
  · have hse : s ≠ e := by
      rintro rfl
      simp [List.nodup_append] at hnd
    obtain ⟨u1, -⟩ := wf_unlink hw
    have u2 : WF (list_base.unlink h e) s ([] ++ (A ++ C)) := u1
    have hx : e ∉ s :: ([] ++ (A ++ C)) := by
      simp [List.nodup_append] at hnd ⊢
      tauto
    obtain ⟨k1, -⟩ := wf_link u2 hx (unlink_unlinked h e)
    have e1 : ([] : List Nat).getLastD s = s := rfl
    rw [e1, link_unlink h e s hse] at k1
    exact k1
  · have hxA : e ∉ A := by
      simp [List.nodup_append] at hnd
      tauto
    rw [List.erase_append_right _ hxA, List.erase_cons_head]
  · rw [List.perm_iff_count]
    intro a
    simp only [List.count_append, List.count_cons, List.count_nil]
    omega
  · rw [List.perm_iff_count]
    intro a
    simp only [List.count_append, List.count_cons, List.count_nil]
    omega

theorem relink_moves_witness :
    (∃ h1, list.push_back heapABC 0 1 = some h1 ∧ WF h1 0 [2, 3, 1]) ∧
    WF (list.push_front heapABC 0 1) 0 [1, 2, 3] ∧
    [1, 2, 3].erase 1 = [2, 3] ∧
    [2, 3, 1].Perm [1, 2, 3] ∧ [1, 2, 3].Perm [1, 2, 3] :=
  relink_moves heapABC 0 1 [] [2, 3] (by decide)

/-- The structural `operator==` of two nodes that stand on circular chains, the same chain
or two different ones, is node identity. -/
theorem ring_op_eq_two {h : Heap} {r1 r2 : List Nat} (h1 : Ring h r1) (h2 : Ring h r2)
    {a b : Nat} (ha : a ∈ r1) (hb : b ∈ r2) :
    list_base.op_eq (h a) (h b) = decide (a = b) := by
  by_cases hab : a = b
  · subst hab; simp [list_base.op_eq]
  · obtain ⟨pa, _, _, _, hpa, _⟩ := ring_neighbours h1 ha
    obtain ⟨pb, _, _, _, hpb, _⟩ := ring_neighbours h2 hb
    have : (h a).prev ≠ (h b).prev := by
      rw [hpa.2, hpb.2]
      intro e
      have e' : pa = pb := by simpa using e
      subst e'
      have := hpa.1.symm.trans hpb.1
      exact hab (by simpa using this)
    simp [list_base.op_eq, this, hab]

/-- C17 (what the code does): with the destination `10` holding `[11, 12]` and the empty
source `0`, `operator=` only calls `close()` on the destination sentinel: afterwards
`11.prev` and `12.next` still point at the sentinel `10`, whose `next` and `prev` point at
itself, so `11` and `12` break the link-node invariant.  With the non-empty source of
`heapTwo` the sentinel is unlinked by `link` and every node keeps the invariant. -/
theorem move_assign_empty_source_dangles :
    WF heapDst 10 [11, 12] ∧ WF heapDst 0 [] ∧
    (∀ n ∈ [0, 10, 11, 12], NodeInv heapDst n) ∧
    (list.move_assign heapDst 10 0).map (fun g => (g 10, g 11, g 12)) =
      some (⟨some 10, some 10⟩, ⟨some 10, some 12⟩, ⟨some 11, some 10⟩) ∧
    (list.move_assign heapDst 10 0).map (fun g => decide (NodeInv g 11)) = some false ∧
    (list.move_assign heapDst 10 0).map (fun g => decide (NodeInv g 12)) = some false ∧
    (list.move_assign heapTwo 10 0).map
      (fun (g : Heap) => decide (∀ n ∈ ([0, 1, 2, 3, 10, 11, 12] : List Nat), NodeInv g n)) = some true := by
  decide

/-- C18 as stated fails: the end iterators of the two empty lists `0` and `10` compare
unequal, and so do their begin iterators. -/
theorem empty_ends_counterexample :
    WF heapEmpties 0 [] ∧ WF heapEmpties 10 [] ∧
    list.empty heapEmpties 0 = true ∧ list.empty heapEmpties 10 = true ∧
    list_iterator.op_eq heapEmpties (list.end_ 0) (list.end_ 10) = some false ∧
    list_iterator.op_eq heapEmpties (list.begin heapEmpties 0) (list.begin heapEmpties 10)
      = some false := by
  decide

/-- C18 (amended): the end iterators of two different empty lists compare unequal, and so
do their begin iterators: `close()` makes the `prev` and `next` of an empty list's sentinel
point at that sentinel, so two different sentinels differ in both pointers. -/
theorem empty_ends_differ (h : Heap) (s1 s2 : Nat) (hne : s1 ≠ s2)
    (h1 : WF h s1 []) (h2 : WF h s2 []) :
    list.empty h s1 = true ∧ list.empty h s2 = true ∧
    list_iterator.op_eq h (list.end_ s1) (list.end_ s2) = some false ∧
    list_iterator.op_eq h (list.begin h s1) (list.begin h s2) = some false := by
  have hl1 : Linked h s1 s1 := wf_linked (A := []) (C := []) h1
  have hl2 : Linked h s2 s2 := wf_linked (A := []) (C := []) h2
  have hb1 : list.begin h s1 = some s1 := hl1.1
  have hb2 : list.begin h s2 = some s2 := hl2.1
  have he : list_iterator.op_eq h (some s1) (some s2) = some false := by
    simp only [list_iterator.op_eq]
    rw [ring_op_eq_two h1 h2 (by simp) (by simp)]
    simp [hne]
  exact ⟨(wf_empty_iff h1).2 rfl, (wf_empty_iff h2).2 rfl, he, by rw [hb1, hb2]; exact he⟩

theorem empty_ends_differ_witness :
    list.empty heapEmpties 0 = true ∧ list.empty heapEmpties 10 = true ∧
    list_iterator.op_eq heapEmpties (list.end_ 0) (list.end_ 10) = some false ∧
    list_iterator.op_eq heapEmpties (list.begin heapEmpties 0) (list.begin heapEmpties 10)
      = some false :=
  empty_ends_differ heapEmpties 0 10 (by decide) (by decide) (by decide)

/-- C19 (structural iterator equality is node identity): for two iterators that designate
nodes `a` and `b` on the chains of well-formed lists, the same list or two lists,
`operator==` holds iff `a` and `b` are the same node and `operator!=` iff they differ;
so the loop `for (it = begin(); it != end(); ++it)` over a well-formed list with `n`
elements ends, whatever fuel beyond `n` it is given, after exactly `n` iterations. -/
theorem iterator_eq_is_identity (h : Heap) (s1 s2 a b : Nat) (l1 l2 : List Nat)
    (hw1 : WF h s1 l1) (hw2 : WF h s2 l2) (ha : a ∈ s1 :: l1) (hb : b ∈ s2 :: l2) :
    list_iterator.op_eq h (some a) (some b) = some (decide (a = b)) ∧
    list_iterator.op_ne h (some a) (some b) = some (decide (a ≠ b)) ∧
    ∀ fuel, l1.length < fuel →
      (list.forward h s1 fuel (list.begin h s1)).map List.length = some l1.length := by
  have he := ring_op_eq_two hw1 hw2 ha hb
  refine ⟨?_, ?_, ?_⟩
  · simp only [list_iterator.op_eq, he]
  · simp only [list_iterator.op_ne, list_base.op_ne, he]
    simp
  · intro fuel hf
    have hw0 : WF h s1 ([] ++ l1) := hw1
    have hl : Linked h s1 (l1.headD s1) := wf_linked hw0
    rw [list.begin, hl.1, wf_forward_from hw0 fuel hf]
    rfl

theorem iterator_eq_is_identity_witness :
    list_iterator.op_eq heapTwo (some 2) (some 12) = some (decide (2 = 12)) ∧
    list_iterator.op_ne heapTwo (some 2) (some 12) = some (decide (2 ≠ 12)) ∧
    ∀ fuel, [1, 2, 3].length < fuel →
      (list.forward heapTwo 0 fuel (list.begin heapTwo 0)).map List.length
        = some [1, 2, 3].length :=
  iterator_eq_is_identity heapTwo 0 10 2 12 [1, 2, 3] [11, 12]
    (by decide) (by decide) (by decide) (by decide)

theorem next_chain_of_path {h : Heap} {b : Nat} (l : List Nat) :
    ∀ a, Path h (a :: l ++ [b]) → NextChain h a l b := by
  induction l with
  | nil => intro a hp; exact hp.1.1
  | cons x l ih => intro a hp; exact ⟨hp.1.1, ih x hp.2⟩

theorem path_of_next_chain {h : Heap} {b : Nat} (l : List Nat) :
    ∀ a, NextChain h a l b → (∀ n ∈ a :: l, NeighboursAgree h n) → Path h (a :: l ++ [b]) := by
  induction l with
  | nil =>
    intro a hc hn
    have h1 : (h a).next = some b := hc
    have h2 := (hn a (by simp)).1
    rw [h1] at h2
    exact ⟨⟨h1, h2⟩, trivial⟩
  | cons x l ih =>
    intro a hc hn
    have h1 : (h a).next = some x := hc.1
    have h2 := (hn a (by simp)).1
    rw [h1] at h2
    exact ⟨⟨h1, h2⟩, ih x hc.2 (fun n hm => hn n (List.mem_cons_of_mem _ hm))⟩

/-- The invariant as the data model words it is the well-formedness used in this file. -/
theorem wellFormedAs_iff (h : Heap) (s : Nat) (l : List Nat) :
    WellFormedAs h s l ↔ WF h s l := by
  constructor
  · rintro ⟨hnd, hc, hn, -⟩
    refine ⟨hnd, ?_⟩
    have e : (s :: l) ++ (s :: l).take 1 = s :: l ++ [s] := by simp
    rw [e]
    exact path_of_next_chain l s hc hn
  · intro hw
    have hnd := wf_nodup hw
    have hp := hw.2
    have e : (s :: l) ++ (s :: l).take 1 = s :: l ++ [s] := by simp
    rw [e] at hp
    refine ⟨hnd, next_chain_of_path l s hp, fun n hn => ring_neighbours_agree hw hn, ?_⟩
    have hfb := wf_front_back hw
    simp only [list.front, list.back] at hfb
    rw [hfb.1, hfb.2]
    cases l with
    | nil => simp
    | cons a l =>
      have hs : s ∉ a :: l := (List.nodup_cons.1 hnd).1
      have h1 : (a :: l).headD s ≠ s := by
        intro e'
        exact hs (by rw [← e']; simp)
      have h2 : (a :: l).getLastD s ≠ s := by
        intro e'
        have e1 : (a :: l).getLastD s = l.getLastD a := by
          cases l <;> simp [List.getLastD]
        have := List.getLastD_mem_cons l a
        rw [← e1, e'] at this
        exact hs this
      constructor
      · intro e'; exact absurd (by simpa using e') h1
      · intro e'; exact absurd (by simpa using e') h2

theorem not_mem_of_unlinked {h : Heap} {s e : Nat} {l : List Nat} (hw : WF h s l)
    (hu : Unlinked h e) : e ∉ s :: l := by
  intro hm
  obtain ⟨_, na, -, -, -, hx⟩ := ring_neighbours hw hm
  have := hu.2
  rw [hx.1] at this
  simp at this


theorem wellFormed_of_wf {h : Heap} {s : Nat} {l : List Nat} (hw : WF h s l) :
    WellFormed h s :=
  ⟨l, (wellFormedAs_iff h s l).2 hw⟩

/-- C16 (well-formedness is an invariant), with well-formedness in the words of the claim
(`WellFormed`, and `WellFormedAs` when the chain is named).  A freshly constructed list is
well formed and empty; `push_back`, `push_front` and `insert` of an unlinked element,
`erase` of a member, `pop_back` and `pop_front` on a non-empty list, and `splice` of a valid
range with `pos` outside the range (inside one list, `pos` before or after the range, and
between two lists) map well-formed lists to well-formed lists; the node removed by
`erase`, `pop_back` or `pop_front` ends with both pointers null. -/
theorem well_formed_invariant :
    (∀ (h : Heap) (s : Nat), WellFormed (list.ctor h s) s ∧ list.empty (list.ctor h s) s = true) ∧
    (∀ (h : Heap) (s e : Nat), WellFormed h s → Unlinked h e →
      (∃ h1, list.push_back h s e = some h1 ∧ WellFormed h1 s) ∧
      WellFormed (list.push_front h s e) s) ∧
    (∀ (h : Heap) (s pos e : Nat) (l : List Nat), WellFormedAs h s l → pos ∈ l ++ [s] →
      Unlinked h e → ∃ h1 it, list.insert h (some pos) e = some (h1, it) ∧ WellFormed h1 s) ∧
    (∀ (h : Heap) (s x : Nat) (l : List Nat), WellFormedAs h s l → x ∈ l →
      ∃ h1 it, list.erase h (some x) = some (h1, it) ∧ WellFormed h1 s ∧ Unlinked h1 x) ∧
    (∀ (h : Heap) (s x : Nat) (l : List Nat), WellFormedAs h s (l ++ [x]) →
      ∃ h1, list.pop_back h s = some h1 ∧ WellFormed h1 s ∧ Unlinked h1 x) ∧
    (∀ (h : Heap) (s x : Nat) (l : List Nat), WellFormedAs h s (x :: l) →
      ∃ h1, list.pop_front h s = some h1 ∧ WellFormed h1 s ∧ Unlinked h1 x) ∧
    (∀ (h : Heap) (s b : Nat) (A B R C : List Nat), WellFormedAs h s (A ++ b :: B ++ R ++ C) →
      ∃ h1, list.splice h s s (some b) (some ((R ++ C).headD s)) (some (C.headD s)) = some h1 ∧
        WellFormed h1 s) ∧
    (∀ (h : Heap) (s : Nat) (A R B C : List Nat), WellFormedAs h s (A ++ R ++ B ++ C) →
      ∃ h1, list.splice h s s (some (C.headD s)) (some ((R ++ B ++ C).headD s))
          (some ((B ++ C).headD s)) = some h1 ∧
        WellFormed h1 s) ∧
    (∀ (h : Heap) (sd ss : Nat) (D1 D2 S1 R S2 : List Nat),
      WellFormedAs h sd (D1 ++ D2) → WellFormedAs h ss (S1 ++ R ++ S2) →
      ((sd :: (D1 ++ D2)) ++ (ss :: (S1 ++ R ++ S2))).Nodup →
      ∃ h1, list.splice h sd ss (some (D2.headD sd)) (some ((R ++ S2).headD ss))
          (some (S2.headD ss)) = some h1 ∧
        WellFormed h1 sd ∧ WellFormed h1 ss) := by
  refine ⟨?_, ?_, ?_, ?_, ?_, ?_, ?_, ?_, ?_⟩
  · intro h s
    have hc := (ctor_wf h s).1
    exact ⟨wellFormed_of_wf hc, (wf_empty_iff hc).2 rfl⟩
  · rintro h s e ⟨l, hl⟩ hu
    have hw := (wellFormedAs_iff h s l).1 hl
    have he := not_mem_of_unlinked hw hu
    obtain ⟨h1, k1, k2, -⟩ := wf_push_back hw he hu
    exact ⟨⟨h1, k1, wellFormed_of_wf k2⟩, wellFormed_of_wf (wf_push_front hw he hu).1⟩
  · intro h s pos e l hl hpos hu
    have hw := (wellFormedAs_iff h s l).1 hl
    have he := not_mem_of_unlinked hw hu
    have hnd := wf_nodup hw
    obtain ⟨A, C, rfl, hC1, -⟩ :=
      split_at_pos hpos (List.nodup_cons.1 hnd).1 (List.nodup_cons.1 hnd).2
    obtain ⟨h1, k1, -, k3⟩ := wf_insert hw he hu
    rw [hC1] at k1
    exact ⟨h1, _, k1, wellFormed_of_wf k3⟩
  · intro h s x l hl hx
    have hw := (wellFormedAs_iff h s l).1 hl
    obtain ⟨A, C, rfl⟩ := List.append_of_mem hx
    obtain ⟨u1, -⟩ := wf_unlink hw
    exact ⟨_, _, rfl, wellFormed_of_wf u1, unlink_unlinked h x⟩
  · intro h s x l hl
    have hw := (wellFormedAs_iff h s _).1 hl
    obtain ⟨h1, k1, k2, k3, -⟩ := (pop_wf h s x l).1 hw
    exact ⟨h1, k1, wellFormed_of_wf k2, k3⟩
  · intro h s x l hl
    have hw := (wellFormedAs_iff h s _).1 hl
    obtain ⟨h1, k1, k2, k3, -⟩ := (pop_wf h s x l).2 hw
    exact ⟨h1, k1, wellFormed_of_wf k2, k3⟩
  · intro h s b A B R C hl
    have hw := (wellFormedAs_iff h s _).1 hl
    obtain ⟨h1, k1, k2, -⟩ := splice_same_before h s b A B R C hw
    exact ⟨h1, k1, wellFormed_of_wf k2⟩
  · intro h s A R B C hl
    have hw := (wellFormedAs_iff h s _).1 hl
    obtain ⟨h1, k1, k2, -⟩ := splice_same_after h s A R B C hw
    exact ⟨h1, k1, wellFormed_of_wf k2⟩
  · intro h sd ss D1 D2 S1 R S2 hd hs hnd
    have hwd := (wellFormedAs_iff h sd _).1 hd
    have hws := (wellFormedAs_iff h ss _).1 hs
    obtain ⟨h1, k1, k2, k3, -⟩ := splice_cross_wf h sd ss D1 D2 S1 R S2 hwd hws hnd
    exact ⟨h1, k1, wellFormed_of_wf k2, wellFormed_of_wf k3⟩


theorem well_formed_invariant_witness :
    (WellFormed (list.ctor heap0 0) 0 ∧ list.empty (list.ctor heap0 0) 0 = true) ∧
    (∃ h1 it, list.erase heapABC (some 2) = some (h1, it) ∧ WellFormed h1 0 ∧ Unlinked h1 2) ∧
    (∃ h1, list.splice heapFive 0 0 (some 1) (some 3) (some 5) = some h1 ∧
      WellFormed h1 0) :=
  ⟨well_formed_invariant.1 heap0 0,
   well_formed_invariant.2.2.2.1 heapABC 0 2 [1, 2, 3] (by decide) (by decide),
   well_formed_invariant.2.2.2.2.2.2.1 heapFive 0 1 [] [2] [3, 4] [5] (by decide)⟩

/-- The pointers of the nodes of a ring are determined by the ring. -/
theorem ring_determines {g1 g2 : Heap} {r : List Nat} (h1 : Ring g1 r) (h2 : Ring g2 r)
    {m : Nat} (hm : m ∈ r) : g1 m = g2 m := by
  obtain ⟨A, B, rfl⟩ := List.append_of_mem hm
  have r1 : Ring g1 (m :: (B ++ A)) := by simpa using ring_rotate h1
  have r2 : Ring g2 (m :: (B ++ A)) := by simpa using ring_rotate h2
  obtain ⟨F, p, hF⟩ := exists_concat m (B ++ A)
  have e1 : (m :: (B ++ A)) ++ (m :: (B ++ A)).take 1 = (m :: (B ++ A)) ++ [m] := by simp
  have p1 := r1.2
  have p2 := r2.2
  rw [e1, path_join hF rfl] at p1 p2
  have hprev : (g1 m).prev = (g2 m).prev := by rw [p1.2.1.2, p2.2.1.2]
  have hnext : (g1 m).next = (g2 m).next := by
    cases hBA : B ++ A with
    | nil =>
      rw [hBA] at r1 r2
      have l1 : Linked g1 m m := r1.2.1
      have l2 : Linked g2 m m := r2.2.1
      rw [l1.1, l2.1]
    | cons n G =>
      rw [hBA] at r1 r2
      have l1 : Linked g1 m n := r1.2.1
      have l2 : Linked g2 m n := r2.2.1
      rw [l1.1, l2.1]
  rw [node_eq_iff]
  exact ⟨hprev, hnext⟩

/-- The six assignments applied to a non-empty range `x :: R` of one list, aimed at a
position of another list. -/
theorem splice_general_cross {h : Heap} {sd ss x : Nat} {D1 D2 S1 R S2 : List Nat}
    (hd : WF h sd (D1 ++ D2)) (hs : WF h ss (S1 ++ x :: R ++ S2))
    (hnd : ((sd :: (D1 ++ D2)) ++ (ss :: (S1 ++ x :: R ++ S2))).Nodup) :
    ∃ h1, list.splice_general h (some (D2.headD sd)) x (S2.headD ss) = some h1 ∧
      WF h1 sd (D1 ++ x :: R ++ D2) ∧ WF h1 ss (S1 ++ S2) ∧
      ∀ m, m ∉ (sd :: (D1 ++ D2)) ++ (ss :: (S1 ++ x :: R ++ S2)) → h1 m = h m := by
  obtain ⟨M', lp, hRb⟩ := exists_concat x R
  obtain ⟨Y, hDa⟩ := rot_view sd D1 D2
  obtain ⟨Y', pp, hDb⟩ := exists_concat (D2.headD sd) Y
  obtain ⟨Z, hSa⟩ := rot_view ss S1 S2
  obtain ⟨Z', fp, hSb⟩ := exists_concat (S2.headD ss) Z
  have hD : Ring h (D2 ++ sd :: D1) := by
    have : Ring h ((sd :: D1) ++ D2) := by simpa [WF] using hd
    exact ring_rotate this
  have hS : Ring h ((x :: R) ++ (S2 ++ ss :: S1)) := by
    have : Ring h ((ss :: S1) ++ ((x :: R) ++ S2)) := by simpa [WF] using hs
    simpa using ring_rotate this
  have hnd3 : ((x :: R) ++ (D2 ++ sd :: D1) ++ (S2 ++ ss :: S1)).Nodup := by
    refine (List.Perm.nodup_iff ?_).1 hnd
    rw [List.perm_iff_count]
    intro a
    simp only [List.count_append, List.count_cons, List.count_nil]
    omega
  obtain ⟨h1, k1, k2, k3, k4⟩ :=
    ring_splice_cross rfl hRb hDa (hDa.trans hDb) hSa (hSa.trans hSb) hD hS hnd3
  refine ⟨h1, k1, ?_, ?_, ?_⟩
  · have : Ring h1 (((x :: R) ++ D2) ++ (sd :: D1)) := by simpa using k2
    simpa [WF] using ring_rotate this
  · have := ring_rotate k3
    simpa [WF] using this
  · intro m hm
    apply k4
    simp at hm ⊢
    tauto

/-- The six assignments applied to a non-empty range `x :: R`, aimed at the element `b`
that stands before the range in the same list. -/
theorem splice_general_before {h : Heap} {s b x : Nat} {A B R C : List Nat}
    (hw : WF h s (A ++ b :: B ++ x :: R ++ C)) :
    ∃ h1, list.splice_general h (some b) x (C.headD s) = some h1 ∧
      WF h1 s (A ++ x :: R ++ b :: B ++ C) ∧
      ∀ m, m ∉ s :: (A ++ b :: B ++ x :: R ++ C) → h1 m = h m := by
  obtain ⟨M', lp, hRb⟩ := exists_concat x R
  obtain ⟨Z, h1a⟩ := rot_view s A C
  obtain ⟨Z', pp, h1b⟩ := exists_concat (C.headD s) Z
  obtain ⟨Y', fp, h2b⟩ := exists_concat b B
  have hr : Ring h ((x :: R) ++ (C ++ s :: A) ++ (b :: B)) := by
    have : Ring h ((s :: A ++ b :: B) ++ ((x :: R) ++ C)) := by simpa [WF] using hw
    simpa using ring_rotate this
  obtain ⟨h1, k1, k2, k3⟩ := ring_splice_same rfl hRb h1a (h1a.trans h1b) rfl h2b hr
  refine ⟨h1, k1, ?_, ?_⟩
  · have : Ring h1 (((x :: R) ++ b :: B ++ C) ++ (s :: A)) := by simpa using k2
    simpa [WF] using ring_rotate this
  · intro m hm
    apply k3
    simp at hm ⊢
    tauto

/-- The six assignments applied to a non-empty range `x :: R` that is followed by
`b :: B`, aimed at the position behind `B` in the same list. -/
theorem splice_general_after {h : Heap} {s b x : Nat} {A R B C : List Nat}
    (hw : WF h s (A ++ x :: R ++ b :: B ++ C)) :
    ∃ h1, list.splice_general h (some (C.headD s)) x b = some h1 ∧
      WF h1 s (A ++ b :: B ++ x :: R ++ C) ∧
      ∀ m, m ∉ s :: (A ++ x :: R ++ b :: B ++ C) → h1 m = h m := by
  obtain ⟨M', lp, hRb⟩ := exists_concat x R
  obtain ⟨Z', pp, h1b⟩ := exists_concat b B
  obtain ⟨Y, h2a⟩ := rot_view s A C
  obtain ⟨Y', fp, h2b⟩ := exists_concat (C.headD s) Y
  have hr : Ring h ((x :: R) ++ (b :: B) ++ (C ++ s :: A)) := by
    have : Ring h ((s :: A) ++ ((x :: R) ++ b :: B ++ C)) := by simpa [WF] using hw
    simpa using ring_rotate this
  obtain ⟨h1, k1, k2, k3⟩ := ring_splice_same rfl hRb rfl h1b h2a (h2a.trans h2b) hr
  refine ⟨h1, k1, ?_, ?_⟩
  · have : Ring h1 (((x :: R) ++ C) ++ (s :: A ++ b :: B)) := by simpa using k2
    simpa [WF] using ring_rotate this
  · intro m hm
    apply k3
    simp at hm ⊢
    tauto


/-- Two heaps that hold the same two well-formed lists and agree with a third heap outside
the nodes `N` of these lists are the same heap. -/
theorem heap_eq_of_wf {g1 g2 h : Heap} {sd ss : Nat} {ld ls N : List Nat}
    (d1 : WF g1 sd ld) (d2 : WF g2 sd ld) (s1 : WF g1 ss ls) (s2 : WF g2 ss ls)
    (f1 : ∀ m, m ∉ N → g1 m = h m) (f2 : ∀ m, m ∉ N → g2 m = h m)
    (hN : ∀ m ∈ N, m ∈ sd :: ld ∨ m ∈ ss :: ls) : g1 = g2 := by
  funext m
  by_cases hm : m ∈ N
  · rcases hN m hm with hd | hs
    · exact ring_determines d1 d2 hd
    · exact ring_determines s1 s2 hs
  · rw [f1 m hm, f2 m hm]

/-- C20 (the fast path of `splice` agrees with the general rewiring): for a range that
holds the single node `x` (`x.next == last`), the heap made by `x.unlink()` followed by
`insert(pos, x)` is the heap the six pointer assignments make, node for node.  The three
cases are: `x` in another well-formed list than `pos`; `pos` an element `b` that stands
before `x` in the same list; `pos` a position behind `last` in the same list (so
`last != pos`). -/
theorem fast_path_agrees :
    (∀ (h : Heap) (sd ss x : Nat) (D1 D2 S1 S2 : List Nat),
      WF h sd (D1 ++ D2) → WF h ss (S1 ++ x :: S2) →
      ((sd :: (D1 ++ D2)) ++ (ss :: (S1 ++ x :: S2))).Nodup →
      (h x).next = some (S2.headD ss) ∧
      ∃ h1, list.splice_single h (some (D2.headD sd)) x = some h1 ∧
        list.splice_general h (some (D2.headD sd)) x (S2.headD ss) = some h1) ∧
    (∀ (h : Heap) (s b x : Nat) (A B C : List Nat), WF h s (A ++ b :: B ++ x :: C) →
      (h x).next = some (C.headD s) ∧
      ∃ h1, list.splice_single h (some b) x = some h1 ∧
        list.splice_general h (some b) x (C.headD s) = some h1) ∧
    (∀ (h : Heap) (s b x : Nat) (A B C : List Nat), WF h s (A ++ x :: b :: B ++ C) →
      (h x).next = some b ∧
      ∃ h1, list.splice_single h (some (C.headD s)) x = some h1 ∧
        list.splice_general h (some (C.headD s)) x b = some h1) := by
  refine ⟨?_, ?_, ?_⟩
  · intro h sd ss x D1 D2 S1 S2 hd hs hnd
    have hs1 : WF h ss ((S1 ++ [x]) ++ S2) := by simpa using hs
    have hl := wf_linked hs1
    simp only [List.getLastD_concat] at hl
    obtain ⟨g1, a1, a2, a3, a4⟩ := splice_single_cross hd hs hnd
    have hs2 : WF h ss (S1 ++ x :: [] ++ S2) := by simpa using hs
    have hnd2 : ((sd :: (D1 ++ D2)) ++ (ss :: (S1 ++ x :: [] ++ S2))).Nodup := by
      simpa using hnd
    obtain ⟨g2, b1, b2, b3, b4⟩ := splice_general_cross hd hs2 hnd2
    have b2' : WF g2 sd (D1 ++ x :: D2) := by simpa using b2
    have b4' : ∀ m, m ∉ (sd :: (D1 ++ D2)) ++ (ss :: (S1 ++ x :: S2)) → g2 m = h m := by
      simpa using b4
    have e : g1 = g2 := by
      refine heap_eq_of_wf a2 b2' a3 b3 a4 b4' ?_
      intro m hm
      simp at hm ⊢
      tauto
    exact ⟨hl.1, g1, a1, by rw [e]; exact b1⟩
  · intro h s b x A B C hw
    have hs1 : WF h s ((A ++ b :: B ++ [x]) ++ C) := by simpa using hw
    have hl := wf_linked hs1
    simp only [List.getLastD_concat] at hl
    have hw1 : WF h s ((A ++ b :: B) ++ x :: C) := by simpa using hw
    have hPQ : (A ++ b :: B) ++ C = A ++ (b :: B ++ C) := by simp
    obtain ⟨g1, a1, a2, a3⟩ := splice_single_same hw1 hPQ
    have hw2 : WF h s (A ++ b :: B ++ x :: [] ++ C) := by simpa using hw
    obtain ⟨g2, b1, b2, b3⟩ := splice_general_before hw2
    have a2' : WF g1 s (A ++ x :: b :: B ++ C) := by simpa using a2
    have b2' : WF g2 s (A ++ x :: b :: B ++ C) := by simpa using b2
    have a3' : ∀ m, m ∉ s :: (A ++ b :: B ++ x :: C) → g1 m = h m := by simpa using a3
    have b3' : ∀ m, m ∉ s :: (A ++ b :: B ++ x :: C) → g2 m = h m := by simpa using b3
    have e : g1 = g2 := by
      refine heap_eq_of_wf a2' b2' a2' b2' a3' b3' ?_
      intro m hm
      simp at hm ⊢
      tauto
    have e0 : (b :: B ++ C).headD s = b := rfl
    rw [e0] at a1
    exact ⟨hl.1, g1, a1, by rw [e]; exact b1⟩
  · intro h s b x A B C hw
    have hs1 : WF h s ((A ++ [x]) ++ (b :: B ++ C)) := by simpa using hw
    have hl := wf_linked hs1
    simp only [List.getLastD_concat] at hl
    have e0 : (b :: B ++ C).headD s = b := rfl
    rw [e0] at hl
    have hw1 : WF h s (A ++ x :: (b :: B ++ C)) := by simpa using hw
    have hPQ : A ++ (b :: B ++ C) = (A ++ b :: B) ++ C := by simp
    obtain ⟨g1, a1, a2, a3⟩ := splice_single_same hw1 hPQ
    have hw2 : WF h s (A ++ x :: [] ++ b :: B ++ C) := by simpa using hw
    obtain ⟨g2, b1, b2, b3⟩ := splice_general_after hw2
    have a2' : WF g1 s (A ++ b :: B ++ x :: C) := by simpa using a2
    have b2' : WF g2 s (A ++ b :: B ++ x :: C) := by simpa using b2
    have a3' : ∀ m, m ∉ s :: (A ++ x :: b :: B ++ C) → g1 m = h m := by simpa using a3
    have b3' : ∀ m, m ∉ s :: (A ++ x :: b :: B ++ C) → g2 m = h m := by simpa using b3
    have e : g1 = g2 := by
      refine heap_eq_of_wf a2' b2' a2' b2' a3' b3' ?_
      intro m hm
      simp at hm ⊢
      tauto
    exact ⟨hl.1, g1, a1, by rw [e]; exact b1⟩

theorem fast_path_agrees_witness :
    ((heapTwo 2).next = some 3 ∧
      ∃ h1, list.splice_single heapTwo (some 12) 2 = some h1 ∧
        list.splice_general heapTwo (some 12) 2 3 = some h1) ∧
    ((heapFive 3).next = some 4 ∧
      ∃ h1, list.splice_single heapFive (some 2) 3 = some h1 ∧
        list.splice_general heapFive (some 2) 3 4 = some h1) ∧
    ((heapFive 3).next = some 4 ∧
      ∃ h1, list.splice_single heapFive (some 0) 3 = some h1 ∧
        list.splice_general heapFive (some 0) 3 4 = some h1) :=
  ⟨fast_path_agrees.1 heapTwo 10 0 2 [11] [12] [1] [3] (by decide) (by decide) (by decide),
   fast_path_agrees.2.1 heapFive 0 2 3 [1] [] [4, 5] (by decide),
   fast_path_agrees.2.2 heapFive 0 4 3 [1, 2] [5] [] (by decide)⟩

end intrusive
